import Mathlib

/-!
# Zoltan2 identifier traits: `globallyConsecutiveOrdinals`

A shallow embedding of `packages/zoltan2/src/util/Zoltan2_IdentifierTraits.hpp`.

Conventions of the embedding.

* A value of an ordinal identifier type `T` is an `Int` inside the range of `T`;
  every conversion to `T` and every arithmetic step carried out in `T` is followed
  by an explicit reduction modulo `2 ^ bits` (`OrdinalType.wrap`).  Overflow of a
  signed type is taken as two's-complement wrap-around.
* `size_t` is a `Nat` below `2 ^ 64`, with arithmetic modulo `2 ^ 64`.
* A process group is the list of the shards of its ranks, rank `0` first; one call of
  the function on rank `r` reads `shards[r]` and the results of the collectives.
* A read of `val[0]` or `val[len-1]` on an empty shard is outside the array in the
  source, which does not test `len`; what the call does from there on is undefined.  The
  embedding ends the call with `Z2Error.outOfBounds`; this value is a convention, and
  the properties below are stated for non-empty shards or do not depend on it.
* `globallyConsecutiveOrdinalsTraced` is the function once more, returning next to its
  result the collectives the calling rank has issued when the call ends.
* The object representation of an integer is two's complement with the least
  significant byte first; a `double` has 8 bytes and a 53-bit significand, and the
  conversion of an integer to `double` rounds to the nearest value, ties to even.
* A use of `UndefIdTraits`, which no program can compile, is the error value
  `Rejected.UsingInvalidGlobalIdentifierDataType`.
-/

namespace Zoltan2

/-! ## Ordinal identifier types -/

/-- The ordinal types for which the header specialises `IdentifierTraits`. -/
inductive OrdinalType where
  | char
  | unsignedChar
  | short
  | unsignedShort
  | int
  | unsignedInt
  | long
  | unsignedLong
  | longLong
  | unsignedLongLong
  deriving DecidableEq, Repr

namespace OrdinalType

/-- Width of the type in bits (LP64 data model). -/
def bits : OrdinalType → Nat
  | char => 8
  | unsignedChar => 8
  | short => 16
  | unsignedShort => 16
  | int => 32
  | unsignedInt => 32
  | long => 64
  | unsignedLong => 64
  | longLong => 64
  | unsignedLongLong => 64

/-- Signedness of the type (plain `char` is taken as signed). -/
def isSigned : OrdinalType → Bool
  | char => true
  | unsignedChar => false
  | short => true
  | unsignedShort => false
  | int => true
  | unsignedInt => false
  | long => true
  | unsignedLong => false
  | longLong => true
  | unsignedLongLong => false

/-- Number of values of the type, `2 ^ bits`. -/
def modulus (T : OrdinalType) : Int := ((2 ^ T.bits : Nat) : Int)

/-- The value `numeric_limits<T>::min()`. -/
def minVal (T : OrdinalType) : Int :=
  if T.isSigned then -(((2 ^ (T.bits - 1) : Nat) : Int)) else 0

/-- The value `numeric_limits<T>::max()`. -/
def maxVal (T : OrdinalType) : Int :=
  if T.isSigned then ((2 ^ (T.bits - 1) : Nat) : Int) - 1 else ((2 ^ T.bits : Nat) : Int) - 1

/-- Conversion of an integer to `T`: the representative of `x` modulo `2 ^ bits`
inside the range of `T`. -/
def wrap (T : OrdinalType) (x : Int) : Int :=
  (x - T.minVal) % T.modulus + T.minVal

/-- The value `x` is representable in `T`. -/
def InRange (T : OrdinalType) (x : Int) : Prop :=
  T.minVal ≤ x ∧ x ≤ T.maxVal

instance (T : OrdinalType) (x : Int) : Decidable (T.InRange x) := by
  unfold InRange
  exact inferInstance

/-- A type narrower than `int` is promoted to `int` inside an arithmetic expression. -/
def promotes (T : OrdinalType) : Bool := T.bits < 32

/-- Value of an arithmetic expression over operands of type `T` whose exact result
is `x`: exact in `int` after promotion, reduced modulo `2 ^ bits` otherwise. -/
def arith (T : OrdinalType) (x : Int) : Int :=
  if T.promotes then x else T.wrap x

end OrdinalType

/-! ## `size_t` -/

/-- Number of values of `size_t`. -/
def sizeMod : Nat := 2 ^ 64

/-- Addition in `size_t`. -/
def sizeAdd (a b : Nat) : Nat := (a + b) % sizeMod

/-- Subtraction in `size_t`. -/
def sizeSub (a b : Nat) : Nat := (a + (sizeMod - b % sizeMod)) % sizeMod

/-- Modelled from the spec: `Teuchos::as<size_t>` on an ordinal value is declared outside
the header; it is the value conversion of the language, the representative of `x` modulo
`2 ^ 64`. -/
def asSize (x : Int) : Nat := (x % (sizeMod : Int)).toNat

/-- Modelled from the spec: `Teuchos::as<T>` on a `size_t` is declared outside the header;
it is the value conversion of the language, reduction into the range of `T`. -/
def OrdinalType.ofSize (T : OrdinalType) (s : Nat) : Int := T.wrap (s : Int)

/-! ## Errors and collectives -/

/-- Failures of a call. -/
inductive Z2Error where
  | logicError (what : String)
  | outOfBounds
  | noSuchRank
  deriving DecidableEq, Repr

/-- Every rank contributes one value computed by `f` from its shard; a failure on one
rank fails the collective step. -/
def gather {α β : Type} (f : α → Except Z2Error β) : List α → Except Z2Error (List β)
  | [] => Except.ok []
  | a :: rest =>
    match f a with
    | Except.error e => Except.error e
    | Except.ok b =>
      match gather f rest with
      | Except.error e => Except.error e
      | Except.ok bs => Except.ok (b :: bs)

/-- Modelled from the spec: `reduceAll(op, sendBuf) -> recvBuf` of the communication layer
with a user operator.  The buffers of the ranks are combined in rank order by
`op inBuffer inoutBuffer`; every rank receives the result. -/
def reduceAll {β : Type} (op : β → β → β) : List β → Option β
  | [] => none
  | b :: rest => some (rest.foldl (fun inout inB => op inB inout) b)

/-- Modelled from the spec: `reduceAll` with `REDUCE_SUM` over one `size_t` per rank. -/
def reduceAllSum (lens : List Nat) : Nat :=
  lens.foldl sizeAdd 0

/-- Modelled from the spec: `reduceAll` with `REDUCE_MIN` over one `int` per rank; the
group is not empty and the default is not used. -/
def reduceAllMin (flags : List Int) : Int :=
  match flags with
  | [] => 0
  | f :: rest => rest.foldl min f

/-- Modelled from the spec: `allToAll(sendBuf, 1) -> recvBuf`, the function `AlltoAll` of
the source: slot `i` of the receive buffer of rank `rank` is slot `rank` of the send
buffer of rank `i`. -/
def AlltoAll (sendBufs : List (List Nat)) (rank : Nat) : List Nat :=
  sendBufs.map (fun sendBuf => sendBuf.getD rank 0)

/-! ## Local primitives -/

/-- The method `Zoltan2_MinMaxOperation<T>::reduce` on two-element buffers. -/
def Zoltan2_MinMaxOperation.reduce (inBuffer inoutBuffer : Int × Int) : Int × Int :=
  let inout0 := if inBuffer.1 < inoutBuffer.1 then inBuffer.1 else inoutBuffer.1
  let inout1 := if inBuffer.2 > inoutBuffer.2 then inBuffer.2 else inoutBuffer.2
  (inout0, inout1)

/-- The function `z2GlobalMinMax`: `locals` holds the `(localMin, localMax)` argument of
every rank, `rank` is the caller. -/
def z2GlobalMinMax (locals : List (Int × Int)) (rank : Nat) : Except Z2Error (Int × Int) :=
  if locals.length = 1 then
    match locals[rank]? with
    | some p => Except.ok p
    | none => Except.error Z2Error.noSuchRank
  else
    match reduceAll Zoltan2_MinMaxOperation.reduce locals with
    | some p => Except.ok p
    | none => Except.error Z2Error.noSuchRank

/-- The loop of `z2AreConsecutive` over `val[1], ..., val[n-2]`. -/
def consecutiveLoop (T : OrdinalType) : List Int → Int → Bool
  | [], _ => true
  | v :: rest, nextval =>
    if v != nextval then false
    else consecutiveLoop T rest (T.wrap (nextval + 1))

/-- The function `z2AreConsecutive`. -/
def z2AreConsecutive (T : OrdinalType) (val : List Int) : Bool :=
  let n := val.length
  if n = 0 then true
  else
    let first := val.getD 0 0
    let last := val.getD (n - 1) 0
    if T.arith (last - first + 1) != T.wrap (n : Int) then false
    else consecutiveLoop T ((val.drop 1).take (n - 2)) (T.wrap (first + 1))

/-! ## Identifier traits -/

/-- The part of `IdentifierTraits<T>` read by `globallyConsecutiveOrdinals`, with the two
conversions between `T` and `size_t` the function applies. -/
structure IdentifierTraits (α : Type) where
  isGlobalOrdinal : Bool
  globalMinMax : List (α × α) → Nat → Except Z2Error (α × α)
  areConsecutive : List α → Except Z2Error Bool
  toSize : α → Nat
  ofSize : Nat → α

/-- The specialisations of `IdentifierTraits` for the ordinal types. -/
def IdentifierTraits.ordinal (T : OrdinalType) : IdentifierTraits Int where
  isGlobalOrdinal := true
  globalMinMax := z2GlobalMinMax
  areConsecutive := fun val => Except.ok (z2AreConsecutive T val)
  toSize := asSize
  ofSize := T.ofSize

/-- The specialisation `IdentifierTraits<string>`; the conversions are never reached. -/
def IdentifierTraits.string : IdentifierTraits String where
  isGlobalOrdinal := false
  globalMinMax := fun _ _ => Except.error (Z2Error.logicError "invalid call")
  areConsecutive := fun _ => Except.error (Z2Error.logicError "invalid call")
  toSize := fun _ => 0
  ofSize := fun _ => ""

/-- The specialisation `IdentifierTraits<std::pair<T1, T2> >`; the conversions are never
reached. -/
def IdentifierTraits.pair {α β : Type} (t1 : IdentifierTraits α) (t2 : IdentifierTraits β) :
    IdentifierTraits (α × β) where
  isGlobalOrdinal := false
  globalMinMax := fun _ _ => Except.error (Z2Error.logicError "invalid call")
  areConsecutive := fun _ => Except.error (Z2Error.logicError "invalid call")
  toSize := fun _ => 0
  ofSize := fun _ => (t1.ofSize 0, t2.ofSize 0)

/-! ## The decision protocol -/

/-- What one call hands back: the returned flag, the buffer `dist`, and `globalLen`. -/
structure Outcome (α : Type) where
  decision : Bool
  dist : List α
  globalLen : Nat
  deriving DecidableEq, Repr

/-- The reads `v0 = val[0]` and `v1 = val[len-1]`.  On an empty shard both lie outside
the array and the source reads them all the same; `Z2Error.outOfBounds` stands for that
undefined read. -/
def firstLast {α : Type} (val : List α) : Except Z2Error (α × α) :=
  match val[0]?, val[val.length - 1]? with
  | some v0, some v1 => Except.ok (v0, v1)
  | _, _ => Except.error Z2Error.outOfBounds

/-- The loop over the receive buffer: false as soon as `recvBuf[i] < recvBuf[i-1]`. -/
def rankOrderLoop : List Nat → Bool
  | [] => true
  | [_] => true
  | a :: b :: rest => if b < a then false else rankOrderLoop (b :: rest)

/-- The flag `lFlag` of one rank. -/
def localFlag {α : Type} (tr : IdentifierTraits α) (val : List α) : Except Z2Error Int :=
  match tr.areConsecutive val with
  | Except.error e => Except.error e
  | Except.ok c => Except.ok (if c then 1 else 0)

/-- The function `globallyConsecutiveOrdinals` as run by rank `rank` of the group whose
ranks hold `shards`; `dist` is the buffer the caller passes in. -/
def globallyConsecutiveOrdinals {α : Type} (tr : IdentifierTraits α)
    (shards : List (List α)) (rank : Nat) (dist : List α) : Except Z2Error (Outcome α) :=
  match shards[rank]? with
  | none => Except.error Z2Error.noSuchRank
  | some val =>
    let globalLen := reduceAllSum (shards.map List.length)
    if !tr.isGlobalOrdinal then Except.ok ⟨false, dist, globalLen⟩
    else
      match firstLast val, gather firstLast shards with
      | Except.error e, _ => Except.error e
      | _, Except.error e => Except.error e
      | Except.ok _, Except.ok locals =>
        match tr.globalMinMax locals rank with
        | Except.error e => Except.error e
        | Except.ok (gMin, gMax) =>
          let minMax := [gMin, gMax]
          let g0 := tr.toSize gMin
          let g1 := tr.toSize gMax
          if sizeAdd (sizeSub g1 g0) 1 = globalLen then
            let sentinel := sizeAdd g1 1
            let nprocs := shards.length
            match tr.areConsecutive val, gather (localFlag tr) shards with
            | Except.error e, _ => Except.error e
            | Except.ok locallyConsecutive, flags =>
              if locallyConsecutive && nprocs == 1 then
                Except.ok ⟨true, minMax.set nprocs (tr.ofSize sentinel), globalLen⟩
              else
                match flags with
                | Except.error e => Except.error e
                | Except.ok lFlags =>
                  if reduceAllMin lFlags = 0 then Except.ok ⟨false, minMax, globalLen⟩
                  else
                    let sendBufs := locals.map (fun p => List.replicate nprocs (tr.toSize p.1))
                    let recvBuf := AlltoAll sendBufs rank
                    if rankOrderLoop recvBuf then
                      Except.ok ⟨true, recvBuf.map tr.ofSize ++ [tr.ofSize sentinel], globalLen⟩
                    else Except.ok ⟨false, minMax, globalLen⟩
          else Except.ok ⟨false, minMax, globalLen⟩

/-! ## The collectives a call issues -/

/-- The collective operations of the source: the `reduceAll` with `REDUCE_SUM` on the
lengths, the `reduceAll` with `Zoltan2_MinMaxOperation` inside `z2GlobalMinMax`, the
`reduceAll` with `REDUCE_MIN` on the flags, and `AlltoAll`. -/
inductive Collective where
  | sizeSum
  | minMax
  | flagMin
  | allToAll
  deriving DecidableEq, Repr

/-- The collectives `z2GlobalMinMax` issues in a group of `nprocs` ranks: none when
`comm.getSize() == 1`, the reduction otherwise. -/
def z2GlobalMinMaxIssued (nprocs : Nat) : List Collective :=
  if nprocs = 1 then [] else [Collective.minMax]

/-- The function `globallyConsecutiveOrdinals` once more, returning next to the result
the collectives the calling rank has issued, in order, when the call ends.
`minMaxIssued` is what `IdentifierTraits<T>::globalMinMax` issues in this group. -/
def globallyConsecutiveOrdinalsTraced {α : Type} (tr : IdentifierTraits α)
    (minMaxIssued : List Collective) (shards : List (List α)) (rank : Nat) (dist : List α) :
    List Collective × Except Z2Error (Outcome α) :=
  match shards[rank]? with
  | none => ([], Except.error Z2Error.noSuchRank)
  | some val =>
    let globalLen := reduceAllSum (shards.map List.length)
    let issued1 := [Collective.sizeSum]
    if !tr.isGlobalOrdinal then (issued1, Except.ok ⟨false, dist, globalLen⟩)
    else
      match firstLast val, gather firstLast shards with
      | Except.error e, _ => (issued1, Except.error e)
      | _, Except.error e => (issued1 ++ minMaxIssued, Except.error e)
      | Except.ok _, Except.ok locals =>
        let issued2 := issued1 ++ minMaxIssued
        match tr.globalMinMax locals rank with
        | Except.error e => (issued2, Except.error e)
        | Except.ok (gMin, gMax) =>
          let minMax := [gMin, gMax]
          let g0 := tr.toSize gMin
          let g1 := tr.toSize gMax
          if sizeAdd (sizeSub g1 g0) 1 = globalLen then
            let sentinel := sizeAdd g1 1
            let nprocs := shards.length
            match tr.areConsecutive val, gather (localFlag tr) shards with
            | Except.error e, _ => (issued2, Except.error e)
            | Except.ok locallyConsecutive, flags =>
              if locallyConsecutive && nprocs == 1 then
                (issued2, Except.ok ⟨true, minMax.set nprocs (tr.ofSize sentinel), globalLen⟩)
              else
                let issued3 := issued2 ++ [Collective.flagMin]
                match flags with
                | Except.error e => (issued3, Except.error e)
                | Except.ok lFlags =>
                  if reduceAllMin lFlags = 0 then
                    (issued3, Except.ok ⟨false, minMax, globalLen⟩)
                  else
                    let sendBufs := locals.map (fun p => List.replicate nprocs (tr.toSize p.1))
                    let recvBuf := AlltoAll sendBufs rank
                    let issued4 := issued3 ++ [Collective.allToAll]
                    if rankOrderLoop recvBuf then
                      (issued4,
                        Except.ok ⟨true, recvBuf.map tr.ofSize ++ [tr.ofSize sentinel], globalLen⟩)
                    else (issued4, Except.ok ⟨false, minMax, globalLen⟩)
          else (issued2, Except.ok ⟨false, minMax, globalLen⟩)

/-- The collectives rank `rank` issues in a call on identifiers of the ordinal type `T`. -/
def collectivesIssued (T : OrdinalType) (shards : List (List Int)) (rank : Nat) :
    List Collective :=
  (globallyConsecutiveOrdinalsTraced (IdentifierTraits.ordinal T)
    (z2GlobalMinMaxIssued shards.length) shards rank []).1

/-! ## The remaining members of the traits -/

/-- The loop of `z2LocalMinMax`, carrying the running `min` and `max`. -/
def minMaxLoop : List Int → Int → Int → Int × Int
  | [], min, max => (min, max)
  | v :: rest, min, max =>
    if v < min then minMaxLoop rest v max
    else if v > max then minMaxLoop rest min v
    else minMaxLoop rest min max

/-- The function `z2LocalMinMax`; the pair is `(min, max)`. -/
def z2LocalMinMax (T : OrdinalType) (val : List Int) : Int × Int :=
  let max := T.minVal
  let min := T.maxVal
  if val.length < 1 then (min, max)
  else minMaxLoop val min max

/-- The loop of `getHashCode`: `lanes` holds the bytes of `total` in memory order (the
array `to` of the source) and `c` the lane the next byte is added to. -/
def hashLoop : List Nat → Nat → List Nat → List Nat
  | [], _, lanes => lanes
  | a :: rest, c, lanes =>
    hashLoop rest (if c + 1 = 4 then 0 else c + 1) (lanes.set c ((lanes.getD c 0 + a) % 256))

/-- The `int` whose four bytes in memory order are `lanes` (least significant byte
first). -/
def intOfBytes (lanes : List Nat) : Int :=
  OrdinalType.int.wrap
    (((lanes.getD 0 0 + 256 * lanes.getD 1 0 + 65536 * lanes.getD 2 0
      + 16777216 * lanes.getD 3 0 : Nat) : Int))

/-- The function `getHashCode` on the bytes `a[0], ..., a[len-1]`. -/
def getHashCode (a : List Nat) : Int :=
  let total := intOfBytes (hashLoop a 0 [0, 0, 0, 0])
  if total < 0 then OrdinalType.int.wrap (total * -1) else total

/-- The value `sizeof(T)` in bytes. -/
def OrdinalType.sizeofT (T : OrdinalType) : Nat := T.bits / 8

/-- The bytes of the object representation of a value of `T` in memory order (two's
complement, least significant byte first). -/
def OrdinalType.objectBytes (T : OrdinalType) (x : Int) : List Nat :=
  (List.range T.sizeofT).map (fun i => (x % T.modulus).toNat / 256 ^ i % 256)

/-- The bytes `a.c_str()[0], ..., a.c_str()[a.size()-1]` of a string. -/
def stringBytes (a : String) : List Nat :=
  a.toUTF8.data.toList.map UInt8.toNat

/-- The number of low bits a magnitude `m` loses when it is cut to a 53-bit significand
(`fuel` bounds the count). -/
def droppedBits : Nat → Nat → Nat
  | 0, _ => 0
  | fuel + 1, m => if m < 2 ^ 53 then 0 else droppedBits fuel (m / 2) + 1

/-- The number held by `static_cast<double>(a)` for an integer `a` below `2 ^ 64` in
magnitude: `a` itself below `2 ^ 53`, else the nearest number with a 53-bit significand,
ties to the even significand. -/
def castDouble (a : Int) : Int :=
  let m := a.natAbs
  if m < 2 ^ 53 then a
  else
    let shift := droppedBits 64 m
    let q := m / 2 ^ shift
    let r := m % 2 ^ shift
    let half := 2 ^ (shift - 1)
    let q1 := if half < r ∨ (r = half ∧ q % 2 = 1) then q + 1 else q
    if a < 0 then -(((q1 * 2 ^ shift : Nat) : Int)) else ((q1 * 2 ^ shift : Nat) : Int)

/-- A value of type `double` as `key` hands it back: the number a conversion produced,
or the eight bytes of storage written in memory order. -/
inductive KeyDouble where
  | number (value : Int)
  | storage (bytes : List Nat)
  deriving DecidableEq, Repr

/-- A store of the bytes `src` into the buffer `buf` at byte offset `offset`. -/
def storeBytes (buf : List Nat) (offset : Nat) (src : List Nat) : List Nat :=
  buf.take offset ++ src ++ buf.drop (offset + src.length)

/-- The members of a specialisation of `IdentifierTraits<T>` besides `name` and
`stringify`, with `sizeof(T)` and the object representation of a value. -/
structure IdentifierTraitsFull (α : Type) extends IdentifierTraits α where
  sizeofT : Nat
  objectBytes : α → List Nat
  hashCode : α → Int
  hasUniqueKey : Bool
  key : α → Except Z2Error KeyDouble
  difference : α → α → Except Z2Error α
  is_valid_id_type : Bool
  minMax : List α → Except Z2Error (α × α)

/-- The member `hashCode` of the ten ordinal specialisations. -/
def OrdinalType.hashCode : OrdinalType → Int → Int
  | OrdinalType.char, c => OrdinalType.int.wrap c
  | OrdinalType.unsignedChar, c => OrdinalType.int.wrap c
  | OrdinalType.short, a => OrdinalType.int.wrap a
  | OrdinalType.unsignedShort, a => OrdinalType.int.wrap a
  | OrdinalType.int, a => OrdinalType.int.wrap a
  | OrdinalType.unsignedInt, a => OrdinalType.int.wrap a
  | OrdinalType.long, a => getHashCode (OrdinalType.long.objectBytes a)
  | OrdinalType.unsignedLong, a => getHashCode (OrdinalType.unsignedLong.objectBytes a)
  | OrdinalType.longLong, a => getHashCode (OrdinalType.longLong.objectBytes a)
  | OrdinalType.unsignedLongLong, a =>
    getHashCode (OrdinalType.unsignedLongLong.objectBytes a)

/-- The specialisations of `IdentifierTraits` for the ordinal types, all members. -/
def IdentifierTraitsFull.ordinal (T : OrdinalType) : IdentifierTraitsFull Int where
  toIdentifierTraits := IdentifierTraits.ordinal T
  sizeofT := T.sizeofT
  objectBytes := T.objectBytes
  hashCode := T.hashCode
  hasUniqueKey := true
  key := fun a => Except.ok (KeyDouble.number (castDouble a))
  difference := fun a b => Except.ok (T.wrap (b - a))
  is_valid_id_type := true
  minMax := fun values => Except.ok (z2LocalMinMax T values)

/-- The specialisation `IdentifierTraits<string>`, all members.  A `string` object is one
pointer; its storage is not modelled and never read. -/
def IdentifierTraitsFull.string : IdentifierTraitsFull String where
  toIdentifierTraits := IdentifierTraits.string
  sizeofT := 8
  objectBytes := fun _ => List.replicate 8 0
  hashCode := fun a => getHashCode (stringBytes a)
  hasUniqueKey := false
  key := fun _ => Except.error (Z2Error.logicError "invalid call")
  difference := fun _ _ => Except.error (Z2Error.logicError "invalid call")
  is_valid_id_type := true
  minMax := fun _ => Except.error (Z2Error.logicError "invalid call")

/-- The specialisation `IdentifierTraits<std::pair<T1, T2> >`, all members.  The members
of the source read `sizeof(T1)` and `sizeof(T2)` only; the fields `sizeofT` and
`objectBytes` of the pair itself are taken without padding, so they are those of the
source only when the components need none, and they matter only for a pair that is
itself a component of a pair. -/
def IdentifierTraitsFull.pair {α β : Type} (t1 : IdentifierTraitsFull α)
    (t2 : IdentifierTraitsFull β) : IdentifierTraitsFull (α × β) where
  toIdentifierTraits := IdentifierTraits.pair t1.toIdentifierTraits t2.toIdentifierTraits
  sizeofT := t1.sizeofT + t2.sizeofT
  objectBytes := fun p => t1.objectBytes p.1 ++ t2.objectBytes p.2
  hashCode := fun p => OrdinalType.int.wrap (t1.hashCode p.1 + t2.hashCode p.2)
  hasUniqueKey :=
    if t1.sizeofT * 2 ≤ 8 ∧ t2.sizeofT * 2 ≤ 8 then true else false
  key := fun p =>
    let nbytes := 8 / 2
    if t1.sizeofT > nbytes ∨ t2.sizeofT > nbytes then
      Except.error (Z2Error.logicError "invalid call")
    else
      let keyVal := List.replicate 8 0
      let afterX := storeBytes keyVal (nbytes - t1.sizeofT) (t1.objectBytes p.1)
      let afterY := storeBytes afterX (nbytes + nbytes - t2.sizeofT) (t2.objectBytes p.2)
      Except.ok (KeyDouble.storage afterY)
  difference := fun _ _ => Except.error (Z2Error.logicError "invalid call")
  is_valid_id_type := if t1.sizeofT + t2.sizeofT ≤ 8 then true else false
  minMax := fun _ => Except.error (Z2Error.logicError "invalid call")

/-- The outcome of reaching `T::UsingInvalidGlobalIdentifierDataType()` through
`UndefIdTraits<T>`: no type has this member, and a program that uses it is rejected. -/
inductive Rejected where
  | UsingInvalidGlobalIdentifierDataType
  deriving DecidableEq, Repr

/-- The member `UndefIdTraits<T>::invalid()`. -/
def UndefIdTraits.invalid {β : Type} : Except Rejected β :=
  Except.error Rejected.UsingInvalidGlobalIdentifierDataType

/-- The member `UndefIdTraits<T>::noop()`. -/
def UndefIdTraits.noop : Except Rejected Unit :=
  Except.error Rejected.UsingInvalidGlobalIdentifierDataType

/-- What each member of the primary template `IdentifierTraits<T>` gives. -/
structure PrimaryTraits (α : Type) where
  hashCode : α → Except Rejected Int
  hasUniqueKey : Except Rejected Bool
  key : α → Except Rejected KeyDouble
  name : Except Rejected String
  stringify : α → Except Rejected String
  isGlobalOrdinal : Except Rejected Bool
  difference : α → α → Except Rejected α
  is_valid_id_type : Bool
  minMax : List α → Except Rejected Unit
  globalMinMax : List (α × α) → Nat → Except Rejected Unit
  areConsecutive : List α → Except Rejected Bool

/-- The primary template `IdentifierTraits<T>`, used for every type without a
specialisation; `toDouble` is the conversion `static_cast<double>` of the type. -/
def IdentifierTraits.primary {α : Type} (toDouble : α → Int) : PrimaryTraits α where
  hashCode := fun _ => UndefIdTraits.invalid
  hasUniqueKey := UndefIdTraits.invalid
  key := fun c => Except.ok (KeyDouble.number (toDouble c))
  name := UndefIdTraits.invalid
  stringify := fun _ => UndefIdTraits.invalid
  isGlobalOrdinal := UndefIdTraits.invalid
  difference := fun _ _ => UndefIdTraits.invalid
  is_valid_id_type := false
  minMax := fun _ => UndefIdTraits.noop
  globalMinMax := fun _ _ => UndefIdTraits.noop
  areConsecutive := fun _ => UndefIdTraits.invalid

/-- The conversion `static_cast<double>` on the type `bool`. -/
def boolToDouble (b : Bool) : Int := if b then 1 else 0

/-! ## Notions used to state and prove the properties -/

/-- The pair `(val[0], val[len-1])` of a shard. -/
def ends (val : List Int) : Int × Int :=
  (val.getD 0 0, val.getD (val.length - 1) 0)

/-- The flag `lFlag` of a shard of an ordinal type. -/
def flagOf (T : OrdinalType) (val : List Int) : Int :=
  if z2AreConsecutive T val then 1 else 0

/-- The pair `(gMin, gMax)` every rank of a group of non-empty shards receives. -/
def globalEnds (shards : List (List Int)) : Int × Int :=
  match shards.map ends with
  | [] => (0, 0)
  | b :: rest => rest.foldl (fun inout inB => Zoltan2_MinMaxOperation.reduce inB inout) b

/-- The outcome of a call on a group of non-empty shards of an ordinal type, as a
closed expression in the shards. -/
def normalForm (T : OrdinalType) (shards : List (List Int)) : Outcome Int :=
  let g := globalEnds shards
  let globalLen := reduceAllSum (shards.map List.length)
  let sentinel := sizeAdd (asSize g.2) 1
  let recvBuf := shards.map (fun s => asSize (ends s).1)
  if sizeAdd (sizeSub (asSize g.2) (asSize g.1)) 1 = globalLen then
    if shards.all (z2AreConsecutive T) then
      if shards.length = 1 then ⟨true, [g.1, T.ofSize sentinel], globalLen⟩
      else if rankOrderLoop recvBuf then
        ⟨true, recvBuf.map T.ofSize ++ [T.ofSize sentinel], globalLen⟩
      else ⟨false, [g.1, g.2], globalLen⟩
    else ⟨false, [g.1, g.2], globalLen⟩
  else ⟨false, [g.1, g.2], globalLen⟩

/-- Every element of the list is the first element plus its index, in the arithmetic
of `T`. -/
def WrapRun (T : OrdinalType) (val : List Int) : Prop :=
  ∀ (j : Nat) (v : Int), val[j]? = some v → v = T.wrap (val.getD 0 0 + (j : Int))

/-- The increasing consecutive list `v, v+1, ..., v+n-1`. -/
def consecutiveRun (v : Int) : Nat → List Int
  | 0 => []
  | n + 1 => v :: consecutiveRun (v + 1) n

/-- The run starting at `a` cut into contiguous shards of the given lengths, in rank
order. -/
def splitRun (a : Int) : List Nat → List (List Int)
  | [] => []
  | n :: rest => consecutiveRun a n :: splitRun (a + (n : Int)) rest

/-- The first values of the shards of `splitRun a lens`. -/
def splitStarts (a : Int) : List Nat → List Int
  | [] => []
  | n :: rest => a :: splitStarts (a + (n : Int)) rest

/-- The member `key` of a traits record is defined exactly when `hasUniqueKey()` holds:
it fails on every identifier when the flag is false and returns a value on every
identifier when the flag is true. -/
def KeyDefinedIffUnique {α : Type} (tr : IdentifierTraitsFull α) : Prop :=
  (tr.hasUniqueKey = false → ∀ id, ∃ e, tr.key id = Except.error e) ∧
  (tr.hasUniqueKey = true → ∀ id, ∃ v, tr.key id = Except.ok v)

/-- The collectives a rank of a group of non-empty shards of an ordinal type issues, as a
closed expression in the shards. -/
def traceForm (T : OrdinalType) (shards : List (List Int)) : List Collective :=
  let issued2 := [Collective.sizeSum] ++ z2GlobalMinMaxIssued shards.length
  if sizeAdd (sizeSub (asSize (globalEnds shards).2) (asSize (globalEnds shards).1)) 1
      = reduceAllSum (shards.map List.length) then
    if shards.all (z2AreConsecutive T) then
      if shards.length = 1 then issued2
      else issued2 ++ [Collective.flagMin] ++ [Collective.allToAll]
    else issued2 ++ [Collective.flagMin]
  else issued2

/-- The sum of the bytes `a[i]` over the indices `i` with `(start + i) mod 4 = j`. -/
def laneSumFrom (start : Nat) (a : List Nat) (j : Nat) : Nat :=
  (((List.enumFrom start a).filter (fun p => p.1 % 4 = j)).map Prod.snd).sum

/-- The sum of the bytes `a[i]` over the indices `i` with `i mod 4 = j`. -/
def laneSum (a : List Nat) (j : Nat) : Nat := laneSumFrom 0 a j

/-! ## Arithmetic of the ordinal types -/

namespace OrdinalType

theorem modulus_pos (T : OrdinalType) : 0 < T.modulus := by
  cases T <;> simp [modulus, bits]

theorem maxVal_eq (T : OrdinalType) : T.maxVal = T.minVal + T.modulus - 1 := by
  cases T <;> simp [maxVal, minVal, modulus, bits, isSigned]

theorem modulus_dvd_sizeMod (T : OrdinalType) : T.modulus ∣ ((sizeMod : Nat) : Int) := by
  cases T <;> simp [modulus, bits, sizeMod] <;> norm_num

theorem minVal_ge (T : OrdinalType) : -9223372036854775808 ≤ T.minVal := by
  cases T <;> simp [minVal, bits, isSigned]

theorem maxVal_lt (T : OrdinalType) : T.maxVal < 18446744073709551616 := by
  cases T <;> simp [maxVal, bits, isSigned]

theorem modulus_le (T : OrdinalType) : T.modulus ≤ 18446744073709551616 := by
  cases T <;> simp [modulus, bits]

theorem wrap_inRange (T : OrdinalType) (x : Int) : T.InRange (T.wrap x) := by
  have h1 := Int.emod_nonneg (x - T.minVal) (ne_of_gt T.modulus_pos)
  have h2 := Int.emod_lt_of_pos (x - T.minVal) T.modulus_pos
  have h3 := T.maxVal_eq
  unfold wrap InRange
  omega

theorem wrap_eq_self {T : OrdinalType} {x : Int} (h : T.InRange x) : T.wrap x = x := by
  have h3 := T.maxVal_eq
  unfold InRange at h
  unfold wrap
  rw [Int.emod_eq_of_lt (by omega) (by omega)]
  omega

theorem wrap_eq_of_dvd {T : OrdinalType} {x y : Int} (h : T.modulus ∣ x - y) :
    T.wrap x = T.wrap y := by
  unfold wrap
  have : (x - T.minVal) % T.modulus = (y - T.minVal) % T.modulus := by
    apply Int.ModEq.symm
    rw [Int.modEq_iff_dvd]
    have e : x - T.minVal - (y - T.minVal) = x - y := by ring
    rw [e]
    exact h
  rw [this]

theorem dvd_wrap_sub (T : OrdinalType) (x : Int) : T.modulus ∣ T.wrap x - x := by
  unfold wrap
  have e : (x - T.minVal) % T.modulus + T.minVal - x
      = -(T.modulus * ((x - T.minVal) / T.modulus)) := by
    have := Int.emod_add_ediv (x - T.minVal) T.modulus
    omega
  rw [e]
  exact (dvd_mul_right _ _).neg_right

theorem eq_of_inRange_of_dvd {T : OrdinalType} {x y : Int} (hx : T.InRange x)
    (hy : T.InRange y) (h : T.modulus ∣ x - y) : x = y := by
  rw [← wrap_eq_self hx, ← wrap_eq_self hy]
  exact wrap_eq_of_dvd h

theorem wrap_wrap_add (T : OrdinalType) (x y : Int) :
    T.wrap (T.wrap x + y) = T.wrap (x + y) := by
  apply wrap_eq_of_dvd
  have e : T.wrap x + y - (x + y) = T.wrap x - x := by ring
  rw [e]
  exact T.dvd_wrap_sub x

end OrdinalType

theorem asSize_lt (x : Int) : asSize x < sizeMod := by
  unfold asSize sizeMod
  omega

theorem asSize_cast (x : Int) : ((asSize x : Nat) : Int) = x % 18446744073709551616 := by
  unfold asSize sizeMod
  omega

theorem ofSize_asSize {T : OrdinalType} {x : Int} (h : T.InRange x) :
    T.ofSize (asSize x) = x := by
  unfold OrdinalType.ofSize
  rw [← OrdinalType.wrap_eq_self h]
  apply OrdinalType.wrap_eq_of_dvd
  rw [OrdinalType.wrap_eq_self h, asSize_cast]
  have hd := T.modulus_dvd_sizeMod
  have e : x % 18446744073709551616 - x = -(18446744073709551616 * (x / 18446744073709551616)) := by
    omega
  rw [e]
  have h2 : T.modulus ∣ (18446744073709551616 : Int) := by
    simpa [sizeMod] using hd
  exact (h2.mul_right _).neg_right

theorem pigeonhole_size (x y : Int) :
    ((sizeAdd (sizeSub (asSize x) (asSize y)) 1 : Nat) : Int)
      = (x - y + 1) % 18446744073709551616 := by
  unfold sizeAdd sizeSub asSize sizeMod
  omega

theorem sentinel_size (x : Int) :
    ((sizeAdd (asSize x) 1 : Nat) : Int) = (x + 1) % 18446744073709551616 := by
  unfold sizeAdd asSize sizeMod
  omega

/-! ## The collectives on a group of non-empty shards -/

theorem firstLast_eq_ends {val : List Int} (h : val ≠ []) :
    firstLast val = Except.ok (ends val) := by
  cases val with
  | nil => exact absurd rfl h
  | cons a l =>
    have hl : l.length < (a :: l).length := by simp
    simp [firstLast, ends, List.getD, List.getElem?_eq_getElem hl]

theorem gather_firstLast {shards : List (List Int)} (h : ∀ s ∈ shards, s ≠ []) :
    gather firstLast shards = Except.ok (shards.map ends) := by
  induction shards with
  | nil => rfl
  | cons s rest ih =>
    have hs : s ≠ [] := h s (List.mem_cons_self _ _)
    have hrest : ∀ t ∈ rest, t ≠ [] := fun t ht => h t (List.mem_cons_of_mem _ ht)
    simp [gather, firstLast_eq_ends hs, ih hrest]

theorem gather_localFlag (T : OrdinalType) (shards : List (List Int)) :
    gather (localFlag (IdentifierTraits.ordinal T)) shards
      = Except.ok (shards.map (flagOf T)) := by
  induction shards with
  | nil => rfl
  | cons s rest ih =>
    have hs : localFlag (IdentifierTraits.ordinal T) s = Except.ok (flagOf T s) := by
      simp [localFlag, IdentifierTraits.ordinal, flagOf]
    simp only [gather, hs, ih, List.map_cons]

theorem foldl_min_flag (T : OrdinalType) (rest : List (List Int)) (f : Int)
    (hf : f = 0 ∨ f = 1) :
    (List.foldl min f (rest.map (flagOf T)) = 0 ∨ List.foldl min f (rest.map (flagOf T)) = 1) ∧
    (List.foldl min f (rest.map (flagOf T)) = 0 ↔
      (f = 0 ∨ ∃ s ∈ rest, z2AreConsecutive T s = false)) := by
  induction rest generalizing f with
  | nil => simpa using hf
  | cons s rest ih =>
    simp only [List.map_cons, List.foldl_cons]
    have hm : min f (flagOf T s) = 0 ∨ min f (flagOf T s) = 1 := by
      unfold flagOf
      rcases hf with h | h <;> split <;> simp [h]
    refine ⟨(ih _ hm).1, ?_⟩
    rw [(ih _ hm).2]
    have key : min f (flagOf T s) = 0 ↔ (f = 0 ∨ z2AreConsecutive T s = false) := by
      unfold flagOf
      rcases hf with h | h <;> cases hc : z2AreConsecutive T s <;> simp [h]
    rw [key]
    simp only [List.mem_cons, exists_eq_or_imp]
    tauto

theorem reduceAllMin_flags (T : OrdinalType) (shards : List (List Int)) (h : shards ≠ []) :
    reduceAllMin (shards.map (flagOf T)) = 0 ↔ shards.all (z2AreConsecutive T) = false := by
  cases shards with
  | nil => exact absurd rfl h
  | cons s rest =>
    have hf : flagOf T s = 0 ∨ flagOf T s = 1 := by
      unfold flagOf
      split <;> simp
    simp only [reduceAllMin, List.map_cons]
    rw [(foldl_min_flag T rest _ hf).2]
    have key : flagOf T s = 0 ↔ z2AreConsecutive T s = false := by
      unfold flagOf
      cases hc : z2AreConsecutive T s <;> simp
    rw [key]
    rw [List.all_eq_false]
    simp only [List.mem_cons, exists_eq_or_imp, Bool.not_eq_true]

theorem AlltoAll_replicate (locals : List (Int × Int)) (n rank : Nat) (hr : rank < n) :
    AlltoAll (locals.map (fun p => List.replicate n (asSize p.1))) rank
      = locals.map (fun p => asSize p.1) := by
  unfold AlltoAll
  rw [List.map_map]
  apply List.map_congr_left
  intro p _
  simp [List.getD, List.getElem?_replicate, hr]

theorem reduceAllSum_eq (lens : List Nat) : reduceAllSum lens = lens.sum % sizeMod := by
  unfold reduceAllSum
  have gen : ∀ (l : List Nat) (a : Nat), a < sizeMod →
      List.foldl sizeAdd a l = (a + l.sum) % sizeMod := by
    intro l
    induction l with
    | nil =>
      intro a ha
      simp [Nat.mod_eq_of_lt ha]
    | cons x rest ih =>
      intro a _
      have hlt : sizeAdd a x < sizeMod := Nat.mod_lt _ (by unfold sizeMod; norm_num)
      simp only [List.foldl_cons, List.sum_cons]
      rw [ih _ hlt]
      unfold sizeAdd
      rw [Nat.mod_add_mod, Nat.add_assoc]
  have := gen lens 0 (by unfold sizeMod; norm_num)
  simpa using this

theorem z2GlobalMinMax_ends (shards : List (List Int)) (rank : Nat)
    (hr : rank < shards.length) :
    z2GlobalMinMax (shards.map ends) rank = Except.ok (globalEnds shards) := by
  unfold z2GlobalMinMax globalEnds
  cases shards with
  | nil => simp at hr
  | cons s rest =>
    by_cases h1 : rest = []
    · subst h1
      have h0 : rank = 0 := by simpa using hr
      subst h0
      simp
    · have hlen : ¬ (ends s :: List.map ends rest).length = 1 := by
        cases rest with
        | nil => exact absurd rfl h1
        | cons t more => simp
      simp only [List.map_cons, reduceAll]
      rw [if_neg hlen]

theorem globallyConsecutiveOrdinals_ordinal (T : OrdinalType) (shards : List (List Int))
    (rank : Nat) (dist : List Int) (hne : ∀ s ∈ shards, s ≠ [])
    (hr : rank < shards.length) :
    globallyConsecutiveOrdinals (IdentifierTraits.ordinal T) shards rank dist
      = Except.ok (normalForm T shards) := by
  have hval : shards[rank]? = some shards[rank] := List.getElem?_eq_getElem hr
  have hmem : shards[rank] ∈ shards := List.getElem_mem hr
  have hfl := firstLast_eq_ends (hne _ hmem)
  have hg := gather_firstLast hne
  have hmm := z2GlobalMinMax_ends shards rank hr
  have hfg := gather_localFlag T shards
  have hsne : shards ≠ [] := by
    intro h
    rw [h] at hr
    simp at hr
  have hmin := reduceAllMin_flags T shards hsne
  have hrecv := AlltoAll_replicate (shards.map ends) shards.length rank hr
  unfold globallyConsecutiveOrdinals normalForm
  simp only [hval]
  simp only [IdentifierTraits.ordinal, Bool.not_true, Bool.false_eq_true, if_false, hfl, hg]
  unfold IdentifierTraits.ordinal at hfg
  rw [hmm]
  have hmap : List.map (fun p : Int × Int => asSize p.1) (List.map ends shards)
      = List.map (fun s => asSize (ends s).1) shards := by
    rw [List.map_map]
    rfl
  simp only [hfg, hrecv, hmap]
  by_cases hp : sizeAdd (sizeSub (asSize (globalEnds shards).2) (asSize (globalEnds shards).1)) 1
      = reduceAllSum (List.map List.length shards)
  · simp only [hp, if_true]
    by_cases hall : shards.all (z2AreConsecutive T) = true
    · have hminN : ¬ reduceAllMin (List.map (flagOf T) shards) = 0 := by
        rw [hmin, hall]
        simp
      have hown : z2AreConsecutive T shards[rank] = true := List.all_eq_true.mp hall _ hmem
      by_cases h1 : shards.length = 1
      · simp [hown, h1, hall]
      · simp [hown, h1, hall, hminN]
        split <;> rfl
    · have hall' : shards.all (z2AreConsecutive T) = false := by
        simpa using hall
      have hmin0 : reduceAllMin (List.map (flagOf T) shards) = 0 := hmin.mpr hall'
      have hcond : ¬ (z2AreConsecutive T shards[rank] && shards.length == 1) = true := by
        intro hc
        simp only [Bool.and_eq_true, beq_iff_eq] at hc
        obtain ⟨s, hs⟩ := List.length_eq_one.mp hc.2
        subst hs
        have h0 : rank = 0 := by simpa using hr
        subst h0
        simp at hall' hc
        rw [hall'] at hc
        exact Bool.false_ne_true hc
      simp only [hcond, if_false, hmin0, if_true, hall', Bool.false_eq_true]
  · simp only [hp, if_false]

/-! ## The local scan -/

theorem consecutiveLoop_iff (T : OrdinalType) (l : List Int) (nextval : Int)
    (hn : T.wrap nextval = nextval) :
    consecutiveLoop T l nextval = true ↔
      ∀ (i : Nat) (v : Int), l[i]? = some v → v = T.wrap (nextval + (i : Int)) := by
  induction l generalizing nextval with
  | nil => simp [consecutiveLoop]
  | cons a rest ih =>
    have hn1 : T.wrap (T.wrap (nextval + 1)) = T.wrap (nextval + 1) :=
      OrdinalType.wrap_eq_self (T.wrap_inRange _)
    unfold consecutiveLoop
    by_cases ha : a = nextval
    · subst ha
      simp only [bne_self_eq_false, Bool.false_eq_true, if_false]
      rw [ih _ hn1]
      constructor
      · intro h i v hi
        cases i with
        | zero =>
          simp at hi
          subst hi
          simpa using hn.symm
        | succ k =>
          simp at hi
          have := h k v hi
          rw [T.wrap_wrap_add] at this
          rw [this]
          congr 1
          push_cast
          ring
      · intro h i v hi
        have := h (i + 1) v (by simpa using hi)
        rw [T.wrap_wrap_add, this]
        congr 1
        push_cast
        ring
    · have hne : (a != nextval) = true := by simpa using ha
      simp only [hne, if_true]
      constructor
      · intro h
        exact absurd h Bool.false_ne_true
      · intro h
        have := h 0 a (by simp)
        simp [hn] at this
        exact absurd this ha

theorem arith_dvd {T : OrdinalType} {x y : Int} (h : T.arith x = T.wrap y) :
    T.modulus ∣ x - y := by
  unfold OrdinalType.arith at h
  split at h
  · rw [h]
    exact T.dvd_wrap_sub y
  · have h1 := T.dvd_wrap_sub x
    have h2 := T.dvd_wrap_sub y
    rw [h] at h1
    have e : x - y = (T.wrap y - y) - (T.wrap y - x) := by ring
    rw [e]
    exact dvd_sub h2 h1

theorem z2AreConsecutive_unfold (T : OrdinalType) (val : List Int) (hne : val ≠ []) :
    z2AreConsecutive T val = true ↔
      (T.arith (val.getD (val.length - 1) 0 - val.getD 0 0 + 1) = T.wrap (val.length : Int) ∧
        consecutiveLoop T ((val.drop 1).take (val.length - 2)) (T.wrap (val.getD 0 0 + 1))
          = true) := by
  have hlen : ¬ val.length = 0 := by
    intro h
    exact hne (List.length_eq_zero.mp h)
  unfold z2AreConsecutive
  simp only [hlen, if_false]
  by_cases hc : T.arith (val.getD (val.length - 1) 0 - val.getD 0 0 + 1)
      = T.wrap (val.length : Int)
  · simp [hc]
  · simp [hc]

theorem z2AreConsecutive_wrapRun (T : OrdinalType) (val : List Int)
    (hin : ∀ v ∈ val, T.InRange v) (h : z2AreConsecutive T val = true) : WrapRun T val := by
  intro j v hj
  by_cases hne : val = []
  · subst hne
    simp at hj
  obtain ⟨hcmp, hloop⟩ := (z2AreConsecutive_unfold T val hne).mp h
  rw [consecutiveLoop_iff T _ _ (OrdinalType.wrap_eq_self (T.wrap_inRange _))] at hloop
  obtain ⟨hjlt, hjv⟩ := List.getElem?_eq_some.mp hj
  have hvin : T.InRange v := hin v (by rw [← hjv]; exact List.getElem_mem hjlt)
  by_cases hj0 : j = 0
  · subst hj0
    have : val.getD 0 0 = v := by simp [List.getD, hj]
    rw [this]
    simpa using (OrdinalType.wrap_eq_self hvin).symm
  by_cases hjl : j = val.length - 1
  · have hlast : val.getD (val.length - 1) 0 = v := by
      rw [← hjl]
      simp [List.getD, hj]
    rw [hlast] at hcmp
    have hd := arith_dvd hcmp
    rw [← OrdinalType.wrap_eq_self hvin]
    apply OrdinalType.wrap_eq_of_dvd
    have e : v - (val.getD 0 0 + (j : Int)) = v - val.getD 0 0 + 1 - (val.length : Int) := by
      have : ((val.length : Nat) : Int) = (j : Int) + 1 := by omega
      rw [this]
      ring
    rw [e]
    exact hd
  · have hmid : ((val.drop 1).take (val.length - 2))[j - 1]? = some v := by
      rw [List.getElem?_take_of_lt (by omega), List.getElem?_drop]
      have : 1 + (j - 1) = j := by omega
      rw [this]
      exact hj
    have := hloop (j - 1) v hmid
    rw [T.wrap_wrap_add] at this
    rw [this]
    congr 1
    have : ((j - 1 : Nat) : Int) = (j : Int) - 1 := by omega
    rw [this]
    ring

/-! ## The reduced pair and the outcome of a call -/

theorem reduce_spec (q b : Int × Int) :
    ((Zoltan2_MinMaxOperation.reduce q b).1 ≤ b.1 ∧ (Zoltan2_MinMaxOperation.reduce q b).1 ≤ q.1 ∧
      ((Zoltan2_MinMaxOperation.reduce q b).1 = b.1 ∨ (Zoltan2_MinMaxOperation.reduce q b).1 = q.1)) ∧
    (b.2 ≤ (Zoltan2_MinMaxOperation.reduce q b).2 ∧ q.2 ≤ (Zoltan2_MinMaxOperation.reduce q b).2 ∧
      ((Zoltan2_MinMaxOperation.reduce q b).2 = b.2 ∨ (Zoltan2_MinMaxOperation.reduce q b).2 = q.2)) := by
  simp only [Zoltan2_MinMaxOperation.reduce]
  refine ⟨⟨?_, ?_, ?_⟩, ⟨?_, ?_, ?_⟩⟩ <;> split <;> omega

theorem foldl_reduce_spec (l : List (Int × Int)) (b : Int × Int) :
    let r := l.foldl (fun inout inB => Zoltan2_MinMaxOperation.reduce inB inout) b
    (r.1 ≤ b.1 ∧ (∀ p ∈ l, r.1 ≤ p.1) ∧ (r.1 = b.1 ∨ ∃ p ∈ l, r.1 = p.1)) ∧
    (b.2 ≤ r.2 ∧ (∀ p ∈ l, p.2 ≤ r.2) ∧ (r.2 = b.2 ∨ ∃ p ∈ l, r.2 = p.2)) := by
  induction l generalizing b with
  | nil => simp
  | cons q rest ih =>
    have h := ih (Zoltan2_MinMaxOperation.reduce q b)
    have hq := reduce_spec q b
    simp only [List.foldl_cons]
    simp only at h
    generalize Zoltan2_MinMaxOperation.reduce q b = c at h hq
    generalize List.foldl (fun inout inB => Zoltan2_MinMaxOperation.reduce inB inout) c rest = r at h
    obtain ⟨⟨h1, h2, h3⟩, ⟨h4, h5, h6⟩⟩ := h
    obtain ⟨⟨g1, g2, g3⟩, ⟨g4, g5, g6⟩⟩ := hq
    refine ⟨⟨?_, ?_, ?_⟩, ⟨?_, ?_, ?_⟩⟩
    · omega
    · intro p hp
      rcases List.mem_cons.mp hp with hq | hq
      · subst hq
        omega
      · exact h2 p hq
    · rcases h3 with h3 | ⟨p, hp, h3⟩
      · rcases g3 with g3 | g3
        · exact Or.inl (h3.trans g3)
        · exact Or.inr ⟨q, List.mem_cons_self _ _, h3.trans g3⟩
      · exact Or.inr ⟨p, List.mem_cons_of_mem _ hp, h3⟩
    · omega
    · intro p hp
      rcases List.mem_cons.mp hp with hq | hq
      · subst hq
        omega
      · exact h5 p hq
    · rcases h6 with h6 | ⟨p, hp, h6⟩
      · rcases g6 with g6 | g6
        · exact Or.inl (h6.trans g6)
        · exact Or.inr ⟨q, List.mem_cons_self _ _, h6.trans g6⟩
      · exact Or.inr ⟨p, List.mem_cons_of_mem _ hp, h6⟩

theorem globalEnds_spec (shards : List (List Int)) (hne : shards ≠ []) :
    ((∀ s ∈ shards, (globalEnds shards).1 ≤ (ends s).1) ∧
      ∃ s ∈ shards, (globalEnds shards).1 = (ends s).1) ∧
    ((∀ s ∈ shards, (ends s).2 ≤ (globalEnds shards).2) ∧
      ∃ s ∈ shards, (globalEnds shards).2 = (ends s).2) := by
  cases shards with
  | nil => exact absurd rfl hne
  | cons t rest =>
    have h := foldl_reduce_spec (rest.map ends) (ends t)
    simp only [globalEnds, List.map_cons]
    simp only at h
    obtain ⟨⟨h1, h2, h3⟩, ⟨h4, h5, h6⟩⟩ := h
    refine ⟨⟨?_, ?_⟩, ⟨?_, ?_⟩⟩
    · intro s hs
      rcases List.mem_cons.mp hs with hq | hq
      · subst hq
        exact h1
      · exact h2 _ (List.mem_map_of_mem _ hq)
    · rcases h3 with h3 | ⟨p, hp, h3⟩
      · exact ⟨t, List.mem_cons_self _ _, h3⟩
      · obtain ⟨s, hs, rfl⟩ := List.mem_map.mp hp
        exact ⟨s, List.mem_cons_of_mem _ hs, h3⟩
    · intro s hs
      rcases List.mem_cons.mp hs with hq | hq
      · subst hq
        exact h4
      · exact h5 _ (List.mem_map_of_mem _ hq)
    · rcases h6 with h6 | ⟨p, hp, h6⟩
      · exact ⟨t, List.mem_cons_self _ _, h6⟩
      · obtain ⟨s, hs, rfl⟩ := List.mem_map.mp hp
        exact ⟨s, List.mem_cons_of_mem _ hs, h6⟩

theorem normalForm_true {T : OrdinalType} {shards : List (List Int)}
    (h : (normalForm T shards).decision = true) :
    sizeAdd (sizeSub (asSize (globalEnds shards).2) (asSize (globalEnds shards).1)) 1
        = reduceAllSum (shards.map List.length) ∧
      shards.all (z2AreConsecutive T) = true ∧
      ((shards.length = 1 ∧ (normalForm T shards).dist
          = [(globalEnds shards).1, T.ofSize (sizeAdd (asSize (globalEnds shards).2) 1)]) ∨
        (shards.length ≠ 1 ∧ rankOrderLoop (shards.map (fun s => asSize (ends s).1)) = true ∧
          (normalForm T shards).dist
            = (shards.map (fun s => asSize (ends s).1)).map T.ofSize
              ++ [T.ofSize (sizeAdd (asSize (globalEnds shards).2) 1)])) := by
  unfold normalForm at h ⊢
  simp only at h ⊢
  split_ifs at h ⊢ <;> simp_all

theorem normalForm_globalLen (T : OrdinalType) (shards : List (List Int)) :
    (normalForm T shards).globalLen = reduceAllSum (shards.map List.length) := by
  unfold normalForm
  simp only
  split_ifs <;> rfl

theorem rankOrderLoop_le (l : List Nat) (h : rankOrderLoop l = true) :
    ∀ (i : Nat) (a b : Nat), l[i]? = some a → l[i + 1]? = some b → a ≤ b := by
  induction l with
  | nil => simp
  | cons x rest ih =>
    cases rest with
    | nil => simp
    | cons y more =>
      unfold rankOrderLoop at h
      split at h
      · exact absurd h Bool.false_ne_true
      · rename_i hxy
        intro i a b ha hb
        cases i with
        | zero =>
          simp at ha hb
          omega
        | succ k =>
          exact ih h k a b (by simpa using ha) (by simpa using hb)

theorem wrapRun_exact (T : OrdinalType) (val : List Int)
    (hin : ∀ v ∈ val, T.InRange v) (hnw : T.maxVal ∉ val.dropLast) (h : WrapRun T val) :
    ∀ (j : Nat) (v : Int), val[j]? = some v → v = val.getD 0 0 + (j : Int) := by
  intro j
  induction j with
  | zero =>
    intro v hv
    simp [List.getD, hv]
  | succ k ih =>
    intro v hv
    obtain ⟨hlt, _⟩ := List.getElem?_eq_some.mp hv
    have hk : k < val.length := by omega
    have hu : val[k]? = some val[k] := List.getElem?_eq_getElem hk
    have hue := ih _ hu
    have huin : T.InRange val[k] := hin _ (List.getElem_mem hk)
    have hkd : k < val.dropLast.length := by
      rw [List.length_dropLast]
      omega
    have hne : val[k] ≠ T.maxVal := by
      intro he
      apply hnw
      rw [← he, ← List.getElem_dropLast val k hkd]
      exact List.getElem_mem hkd
    have hv' := h (k + 1) v hv
    have hin1 : T.InRange (val.getD 0 0 + ((k + 1 : Nat) : Int)) := by
      unfold OrdinalType.InRange at huin ⊢
      push_cast
      omega
    rw [OrdinalType.wrap_eq_self hin1] at hv'
    exact hv'

theorem exact_run_bounds (val : List Int) (hne : val ≠ [])
    (h : ∀ (j : Nat) (v : Int), val[j]? = some v → v = val.getD 0 0 + (j : Int)) :
    (ends val).1 ∈ val ∧ (ends val).2 ∈ val ∧
      ∀ v ∈ val, (ends val).1 ≤ v ∧ v ≤ (ends val).2 := by
  have hpos : 0 < val.length := List.length_pos.mpr hne
  have h0 : val[0]? = some val[0] := List.getElem?_eq_getElem hpos
  have hl : val[val.length - 1]? = some val[val.length - 1] :=
    List.getElem?_eq_getElem (by omega)
  have e1 : (ends val).1 = val[0] := by simp [ends, List.getD, h0]
  have e2 : (ends val).2 = val[val.length - 1] := by simp [ends, List.getD, hl]
  have hlast := h _ _ hl
  have hfirst : val.getD 0 0 = val[0] := by simp [List.getD, h0]
  refine ⟨?_, ?_, ?_⟩
  · rw [e1]
    exact List.getElem_mem hpos
  · rw [e2]
    exact List.getElem_mem (by omega)
  · intro v hv
    obtain ⟨j, hj, hjv⟩ := List.getElem_of_mem hv
    have := h j v (by rw [List.getElem?_eq_getElem hj, hjv])
    rw [e1, e2, hlast, this, hfirst]
    omega

theorem length_le_sum_lengths {α : Type} (shards : List (List α)) (s : List α)
    (hs : s ∈ shards) : s.length ≤ (shards.map List.length).sum := by
  induction shards with
  | nil => simp at hs
  | cons t rest ih =>
    rcases List.mem_cons.mp hs with h | h
    · subst h
      simp
    · have := ih h
      simp only [List.map_cons, List.sum_cons]
      omega

theorem consecutiveRun_length (v : Int) (n : Nat) : (consecutiveRun v n).length = n := by
  induction n generalizing v with
  | zero => rfl
  | succ k ih => simp [consecutiveRun, ih]

theorem consecutiveRun_getElem? (v : Int) (n j : Nat) (hj : j < n) :
    (consecutiveRun v n)[j]? = some (v + (j : Int)) := by
  induction n generalizing v j with
  | zero => omega
  | succ k ih =>
    cases j with
    | zero => simp [consecutiveRun]
    | succ i =>
      simp only [consecutiveRun, List.getElem?_cons_succ]
      rw [ih (v + 1) i (by omega)]
      congr 1
      push_cast
      ring

theorem consecutiveRun_ends (v : Int) (n : Nat) (hn : 0 < n) :
    ends (consecutiveRun v n) = (v, v + (n : Int) - 1) := by
  unfold ends
  rw [consecutiveRun_length]
  simp only [List.getD_eq_getElem?_getD]
  rw [consecutiveRun_getElem? v n 0 hn, consecutiveRun_getElem? v n (n - 1) (by omega)]
  simp only [Option.getD_some, Prod.mk.injEq]
  constructor
  · simp
  · omega

theorem OrdinalType.minVal_nonpos (T : OrdinalType) : T.minVal ≤ 0 := by
  cases T <;> simp [OrdinalType.minVal, OrdinalType.isSigned]

theorem OrdinalType.wrap_emod_size (T : OrdinalType) (x : Int) :
    T.wrap (x % 18446744073709551616) = T.wrap x := by
  apply OrdinalType.wrap_eq_of_dvd
  have e : x % 18446744073709551616 - x = -(18446744073709551616 * (x / 18446744073709551616)) := by
    omega
  rw [e]
  have h2 : T.modulus ∣ (18446744073709551616 : Int) := by
    simpa [sizeMod] using T.modulus_dvd_sizeMod
  exact (h2.mul_right _).neg_right

theorem ofSize_sentinel {T : OrdinalType} {x : Int} (h : T.InRange (x + 1)) :
    T.ofSize (sizeAdd (asSize x) 1) = x + 1 := by
  unfold OrdinalType.ofSize
  rw [sentinel_size, T.wrap_emod_size, OrdinalType.wrap_eq_self h]

theorem z2AreConsecutive_run (T : OrdinalType) (v : Int) (n : Nat) (hn : 0 < n)
    (hv : T.minVal ≤ v) (hs : v + (n : Int) - 1 ≤ T.maxVal) (hnT : (n : Int) ≤ T.maxVal) :
    z2AreConsecutive T (consecutiveRun v n) = true := by
  have hne : consecutiveRun v n ≠ [] := by
    intro h
    have := consecutiveRun_length v n
    rw [h] at this
    simp at this
    omega
  rw [z2AreConsecutive_unfold T _ hne]
  have he := consecutiveRun_ends v n hn
  unfold ends at he
  rw [Prod.mk.injEq] at he
  rw [consecutiveRun_length] at he ⊢
  rw [he.1, he.2]
  have hnin : T.InRange (n : Int) := ⟨by have := T.minVal_nonpos; omega, hnT⟩
  constructor
  · have e : v + (n : Int) - 1 - v + 1 = (n : Int) := by ring
    rw [e, OrdinalType.wrap_eq_self hnin]
    unfold OrdinalType.arith
    split
    · rfl
    · exact OrdinalType.wrap_eq_self hnin
  · rw [consecutiveLoop_iff T _ _ (OrdinalType.wrap_eq_self (T.wrap_inRange _))]
    intro i w hi
    have hlt : i < n - 2 := by
      by_contra hc
      rw [List.getElem?_take_eq_none (by omega)] at hi
      exact Option.noConfusion hi
    rw [List.getElem?_take_of_lt hlt, List.getElem?_drop,
      consecutiveRun_getElem? v n (1 + i) (by omega)] at hi
    have hw : w = v + 1 + (i : Int) := by
      have := Option.some.inj hi
      rw [← this]
      push_cast
      ring
    rw [T.wrap_wrap_add, hw]
    have hin : T.InRange (v + 1 + (i : Int)) := by
      constructor <;> omega
    exact (OrdinalType.wrap_eq_self hin).symm

/-! ## A run split over the ranks -/

theorem splitRun_lengths (a : Int) (lens : List Nat) :
    (splitRun a lens).map List.length = lens := by
  induction lens generalizing a with
  | nil => rfl
  | cons n rest ih => simp [splitRun, consecutiveRun_length, ih]

theorem splitRun_mem (a : Int) (lens : List Nat) (s : List Int) (hs : s ∈ splitRun a lens) :
    ∃ (b : Int) (n : Nat), s = consecutiveRun b n ∧ n ∈ lens ∧ a ≤ b ∧
      b + (n : Int) ≤ a + ((lens.sum : Nat) : Int) := by
  induction lens generalizing a with
  | nil => simp [splitRun] at hs
  | cons m rest ih =>
    simp only [splitRun, List.mem_cons] at hs
    rcases hs with h | h
    · refine ⟨a, m, h, List.mem_cons_self _ _, le_refl _, ?_⟩
      simp only [List.sum_cons, Nat.cast_add]
      omega
    · obtain ⟨b, n, e, hn, hb, hbn⟩ := ih (a + (m : Int)) h
      refine ⟨b, n, e, List.mem_cons_of_mem _ hn, by omega, ?_⟩
      simp only [List.sum_cons, Nat.cast_add]
      omega

theorem splitRun_firsts (a : Int) (lens : List Nat) (hpos : ∀ n ∈ lens, 0 < n) :
    (splitRun a lens).map (fun s => (ends s).1) = splitStarts a lens := by
  induction lens generalizing a with
  | nil => rfl
  | cons n rest ih =>
    have hn : 0 < n := hpos n (List.mem_cons_self _ _)
    have hrest : ∀ m ∈ rest, 0 < m := fun m hm => hpos m (List.mem_cons_of_mem _ hm)
    simp only [splitRun, splitStarts, List.map_cons, consecutiveRun_ends a n hn, ih _ hrest]

theorem splitRun_last (a : Int) (lens : List Nat) (hk : lens ≠ [])
    (hpos : ∀ n ∈ lens, 0 < n) :
    ∃ s ∈ splitRun a lens, (ends s).2 = a + ((lens.sum : Nat) : Int) - 1 := by
  induction lens generalizing a with
  | nil => exact absurd rfl hk
  | cons n rest ih =>
    have hn : 0 < n := hpos n (List.mem_cons_self _ _)
    have hrest : ∀ m ∈ rest, 0 < m := fun m hm => hpos m (List.mem_cons_of_mem _ hm)
    by_cases h : rest = []
    · subst h
      refine ⟨consecutiveRun a n, by simp [splitRun], ?_⟩
      rw [consecutiveRun_ends a n hn]
      simp
    · obtain ⟨s, hs, e⟩ := ih (a + (n : Int)) h hrest
      refine ⟨s, by simp [splitRun, hs], ?_⟩
      rw [e]
      simp only [List.sum_cons, Nat.cast_add]
      omega

theorem splitStarts_mem (a : Int) (lens : List Nat) (x : Int) (hx : x ∈ splitStarts a lens) :
    a ≤ x ∧ x ≤ a + ((lens.sum : Nat) : Int) := by
  induction lens generalizing a with
  | nil => simp [splitStarts] at hx
  | cons n rest ih =>
    simp only [splitStarts, List.mem_cons] at hx
    simp only [List.sum_cons, Nat.cast_add]
    rcases hx with h | h
    · omega
    · have := ih _ h
      omega

theorem rankOrderLoop_splitStarts (a : Int) (lens : List Nat) (ha : 0 ≤ a)
    (hmax : a + ((lens.sum : Nat) : Int) < 18446744073709551616) :
    rankOrderLoop ((splitStarts a lens).map asSize) = true := by
  induction lens generalizing a with
  | nil => rfl
  | cons n rest ih =>
    simp only [List.sum_cons, Nat.cast_add] at hmax
    have h := ih (a + (n : Int)) (by omega) (by omega)
    cases rest with
    | nil => rfl
    | cons m more =>
      simp only [splitStarts, List.map_cons] at h ⊢
      unfold rankOrderLoop
      have c1 := asSize_cast a
      have c2 := asSize_cast (a + (n : Int))
      have hlt : ¬ asSize (a + (n : Int)) < asSize a := by omega
      rw [if_neg hlt]
      exact h

theorem map_ofSize_asSize (T : OrdinalType) (l : List Int) (h : ∀ x ∈ l, T.InRange x) :
    (l.map asSize).map T.ofSize = l := by
  induction l with
  | nil => rfl
  | cons x rest ih =>
    have hx := ofSize_asSize (h x (List.mem_cons_self _ _))
    have hrest := ih (fun y hy => h y (List.mem_cons_of_mem _ hy))
    simp only [List.map_cons, hx, hrest]

/-- For every ordinal type `T`, every start `a ≥ 0` and every list of `k ≥ 1` positive
shard lengths with sum `N` such that `a + N` is representable in `T`: when the run
`a, ..., a+N-1` is cut into contiguous shards of these lengths held by ranks `0..k-1` in
rank order, the call returns true on every rank, sets `globalLen` to `N` and hands back the
descriptor of `k + 1` slots made of the first value of every rank followed by `a + N`. -/
theorem splitRun_accepted (T : OrdinalType) (a : Int) (lens : List Nat)
    (rank : Nat) (dist : List Int)
    (hpos : ∀ n ∈ lens, 0 < n) (ha : 0 ≤ a)
    (hmax : a + ((lens.sum : Nat) : Int) ≤ T.maxVal) (hr : rank < lens.length) :
    globallyConsecutiveOrdinals (IdentifierTraits.ordinal T) (splitRun a lens) rank dist
      = Except.ok ⟨true, splitStarts a lens ++ [a + ((lens.sum : Nat) : Int)], lens.sum⟩ := by
  have hk : lens ≠ [] := by
    intro h
    rw [h] at hr
    simp at hr
  have hlenEq : (splitRun a lens).length = lens.length := by
    have := congrArg List.length (splitRun_lengths a lens)
    simpa using this
  have hM := T.maxVal_lt
  have hm0 := T.minVal_nonpos
  have hne : ∀ s ∈ splitRun a lens, s ≠ [] := by
    intro s hs h
    obtain ⟨b, n, e, hn, _, _⟩ := splitRun_mem a lens s hs
    have := consecutiveRun_length b n
    rw [← e, h] at this
    have := hpos n hn
    simp at *
    omega
  rw [globallyConsecutiveOrdinals_ordinal T _ rank dist hne (by omega)]
  have hsne : splitRun a lens ≠ [] := by
    intro h
    rw [h] at hlenEq
    have : lens.length = 0 := by simpa using hlenEq.symm
    exact hk (List.length_eq_zero.mp this)
  have hall : (splitRun a lens).all (z2AreConsecutive T) = true := by
    rw [List.all_eq_true]
    intro s hs
    obtain ⟨b, n, e, hn, hb, hbn⟩ := splitRun_mem a lens s hs
    rw [e]
    exact z2AreConsecutive_run T b n (hpos n hn) (by omega) (by omega) (by omega)
  have hfirsts := splitRun_firsts a lens hpos
  have hrecv : (splitRun a lens).map (fun s => asSize (ends s).1)
      = (splitStarts a lens).map asSize := by
    rw [← hfirsts, List.map_map]
    rfl
  have hends : globalEnds (splitRun a lens) = (a, a + ((lens.sum : Nat) : Int) - 1) := by
    obtain ⟨⟨hlo, s1, hs1, e1⟩, ⟨hhi, s2, hs2, e2⟩⟩ := globalEnds_spec (splitRun a lens) hsne
    have hbound : ∀ s ∈ splitRun a lens,
        a ≤ (ends s).1 ∧ (ends s).2 ≤ a + ((lens.sum : Nat) : Int) - 1 := by
      intro s hs
      obtain ⟨b, n, e, hn, hb, hbn⟩ := splitRun_mem a lens s hs
      rw [e, consecutiveRun_ends b n (hpos n hn)]
      constructor <;> simp only <;> omega
    obtain ⟨sl, hsl, el⟩ := splitRun_last a lens hk hpos
    have hhead : ∃ s ∈ splitRun a lens, (ends s).1 = a := by
      cases lens with
      | nil => exact absurd rfl hk
      | cons n rest =>
        refine ⟨consecutiveRun a n, by simp [splitRun], ?_⟩
        rw [consecutiveRun_ends a n (hpos n (List.mem_cons_self _ _))]
    obtain ⟨sh, hsh, eh⟩ := hhead
    have b1 := (hbound s1 hs1).1
    have b2 := (hbound s2 hs2).2
    have b3 := hlo sh hsh
    have b4 := hhi sl hsl
    apply Prod.ext
    · simp only
      omega
    · simp only
      omega
  have hsum : reduceAllSum ((splitRun a lens).map List.length) = lens.sum := by
    rw [splitRun_lengths, reduceAllSum_eq]
    apply Nat.mod_eq_of_lt
    unfold sizeMod
    omega
  have hp : sizeAdd (sizeSub (asSize (a + ((lens.sum : Nat) : Int) - 1)) (asSize a)) 1
      = lens.sum := by
    have := pigeonhole_size (a + ((lens.sum : Nat) : Int) - 1) a
    omega
  have hsent : T.ofSize (sizeAdd (asSize (a + ((lens.sum : Nat) : Int) - 1)) 1)
      = a + ((lens.sum : Nat) : Int) := by
    have hin : T.InRange (a + ((lens.sum : Nat) : Int) - 1 + 1) := by
      constructor <;> omega
    rw [ofSize_sentinel hin]
    ring
  have hord := rankOrderLoop_splitStarts a lens ha (by omega)
  have hback : ((splitStarts a lens).map asSize).map T.ofSize = splitStarts a lens := by
    apply map_ofSize_asSize
    intro x hx
    have := splitStarts_mem a lens x hx
    constructor <;> omega
  unfold normalForm
  simp only [hends, hsum, hp, hsent, hall, hrecv, hord, hback, if_true, hlenEq]
  by_cases h1 : lens.length = 1
  · obtain ⟨n, hn⟩ := List.length_eq_one.mp h1
    subst hn
    simp [splitStarts]
  · simp [h1]

/-- The property `splitRun_accepted` at the `unsigned int` run `10, ..., 15` cut into
shards of lengths 2, 1 and 3, seen from rank 1. -/
theorem splitRun_accepted_witness :
    globallyConsecutiveOrdinals (IdentifierTraits.ordinal OrdinalType.unsignedInt)
        (splitRun 10 [2, 1, 3]) 1 []
      = Except.ok ⟨true, splitStarts 10 [2, 1, 3] ++ [10 + ((([2, 1, 3] : List Nat).sum : Nat) : Int)],
          ([2, 1, 3] : List Nat).sum⟩ :=
  splitRun_accepted OrdinalType.unsignedInt 10 [2, 1, 3] 1 [] (by decide) (by decide)
    (by decide) (by decide)

/-! ## Claims on `globallyConsecutiveOrdinals` -/

/-- C1 fails on the code: on three ranks holding the `int` shards `{0, 1, 2}`, `{1}`,
`{4}` every rank gets the answer true with descriptor `[0, 1, 4, 5]`, although the value
`1` is held twice and the value `3` of the range `[0, 4]` is held by no rank. -/
theorem c1_overlapping_shards_accepted :
    (globallyConsecutiveOrdinals (IdentifierTraits.ordinal OrdinalType.int)
        [[0, 1, 2], [1], [4]] 0 [] = Except.ok ⟨true, [0, 1, 4, 5], 5⟩ ∧
      globallyConsecutiveOrdinals (IdentifierTraits.ordinal OrdinalType.int)
        [[0, 1, 2], [1], [4]] 1 [] = Except.ok ⟨true, [0, 1, 4, 5], 5⟩ ∧
      globallyConsecutiveOrdinals (IdentifierTraits.ordinal OrdinalType.int)
        [[0, 1, 2], [1], [4]] 2 [] = Except.ok ⟨true, [0, 1, 4, 5], 5⟩) ∧
    (([0, 1, 2] ++ [1] ++ [4] : List Int).count 1 = 2 ∧
      (3 : Int) ∉ ([0, 1, 2] ++ [1] ++ [4] : List Int)) :=
  ⟨⟨rfl, rfl, rfl⟩, by decide, by decide⟩

/-- C2 fails on the code: the `int` run `-2, -1, 0, 1` split into the shards `{-2, -1}`
on rank 0 and `{0, 1}` on rank 1 gets the answer false on both ranks, with the buffer
`[-2, 1]`; the run of the claim on three ranks gets true and `[0, 3, 5, 9]`. -/
theorem c2_signed_run_rejected :
    (globallyConsecutiveOrdinals (IdentifierTraits.ordinal OrdinalType.int)
        [[-2, -1], [0, 1]] 0 [] = Except.ok ⟨false, [-2, 1], 4⟩ ∧
      globallyConsecutiveOrdinals (IdentifierTraits.ordinal OrdinalType.int)
        [[-2, -1], [0, 1]] 1 [] = Except.ok ⟨false, [-2, 1], 4⟩) ∧
    globallyConsecutiveOrdinals (IdentifierTraits.ordinal OrdinalType.int)
        [[0, 1, 2], [3, 4], [5, 6, 7, 8]] 0 [] = Except.ok ⟨true, [0, 3, 5, 9], 9⟩ :=
  ⟨⟨rfl, rfl⟩, rfl⟩

/-- C3 fails on the code: on three ranks holding the `int` shards `{0, 1, 2}`, `{1}`,
`{4}` the call returns true with descriptor `d = [0, 1, 4, 5]`; rank 0 holds three values
while `d[1] - d[0] = 1`, and its value `2` is not below `d[1]`. -/
theorem c3_descriptor_misses_owner :
    globallyConsecutiveOrdinals (IdentifierTraits.ordinal OrdinalType.int)
        [[0, 1, 2], [1], [4]] 0 [] = Except.ok ⟨true, [0, 1, 4, 5], 5⟩ ∧
    (([0, 1, 2] : List Int).length : Int)
        ≠ ([0, 1, 4, 5] : List Int).getD 1 0 - ([0, 1, 4, 5] : List Int).getD 0 0 ∧
    (2 : Int) ∈ ([0, 1, 2] : List Int) ∧ ¬ ((2 : Int) < ([0, 1, 4, 5] : List Int).getD 1 0) :=
  ⟨rfl, by decide, by decide, by decide⟩

/-- C4, as stated, fails: one rank holding the `unsigned long` shard
`{2^64 - 1, 0}` gets the answer true, although the second element is not the first plus
one. -/
theorem c4_counterexample_wrapping_shard :
    globallyConsecutiveOrdinals (IdentifierTraits.ordinal OrdinalType.unsignedLong)
        [[18446744073709551615, 0]] 0 []
      = Except.ok ⟨true, [18446744073709551615, 1], 2⟩ ∧
    (0 : Int) ≠ 18446744073709551615 + 1 :=
  ⟨rfl, by decide⟩

/-- C4, amended: for every ordinal type and every group of non-empty shards of values of
the type, if in some shard an element is not its predecessor plus one in the arithmetic
of the type (addition modulo `2 ^ bits`), the call returns false on every rank. -/
theorem c4_not_locally_consecutive_returns_false (T : OrdinalType)
    (shards : List (List Int)) (dist : List Int)
    (hne : ∀ s ∈ shards, s ≠ [])
    (hin : ∀ s ∈ shards, ∀ v ∈ s, T.InRange v)
    (hbad : ∃ s ∈ shards, ∃ (i : Nat) (a b : Int),
      s[i]? = some a ∧ s[i + 1]? = some b ∧ b ≠ T.wrap (a + 1))
    (rank : Nat) (hr : rank < shards.length) :
    ∃ out, globallyConsecutiveOrdinals (IdentifierTraits.ordinal T) shards rank dist
        = Except.ok out ∧ out.decision = false := by
  refine ⟨normalForm T shards, globallyConsecutiveOrdinals_ordinal T shards rank dist hne hr, ?_⟩
  by_contra hd
  have hd' : (normalForm T shards).decision = true := by simpa using hd
  obtain ⟨_, hall, _⟩ := normalForm_true hd'
  obtain ⟨s, hs, i, a, b, ha, hb, hab⟩ := hbad
  have hcons : z2AreConsecutive T s = true := List.all_eq_true.mp hall s hs
  have hrun := z2AreConsecutive_wrapRun T s (hin s hs) hcons
  have h1 := hrun i a ha
  have h2 := hrun (i + 1) b hb
  apply hab
  rw [h2, h1, T.wrap_wrap_add]
  congr 1
  push_cast
  ring

/-- C4, amended, at the `int` shards `{0, 2}` and `{3}`: rank 0 gets false. -/
theorem c4_witness :
    ∃ out, globallyConsecutiveOrdinals (IdentifierTraits.ordinal OrdinalType.int)
        [[0, 2], [3]] 0 [] = Except.ok out ∧ out.decision = false :=
  c4_not_locally_consecutive_returns_false OrdinalType.int [[0, 2], [3]] []
    (by decide) (by decide) ⟨[0, 2], by decide, 0, 0, 2, rfl, rfl, by decide⟩ 0 (by decide)

/-- C5, as stated, fails: one rank holding the `unsigned long` shard
`{2^64 - 2, 2^64 - 1, 0}` gets the answer true, although the largest value minus the
smallest plus one is `2^64`, not the number of values. -/
theorem c5_counterexample_wrapping_shard :
    globallyConsecutiveOrdinals (IdentifierTraits.ordinal OrdinalType.unsignedLong)
        [[18446744073709551614, 18446744073709551615, 0]] 0 []
      = Except.ok ⟨true, [18446744073709551614, 1], 3⟩ ∧
    ((0 : Int) ∈ ([18446744073709551614, 18446744073709551615, 0] : List Int) ∧
      (18446744073709551615 : Int) ∈ ([18446744073709551614, 18446744073709551615, 0] : List Int) ∧
      ∀ v ∈ ([18446744073709551614, 18446744073709551615, 0] : List Int),
        0 ≤ v ∧ v ≤ 18446744073709551615) ∧
    (18446744073709551615 : Int) - 0 + 1
      ≠ ((([18446744073709551614, 18446744073709551615, 0] : List Int).length : Nat) : Int) :=
  ⟨rfl, by decide, by decide⟩

/-- C5, amended: for every ordinal type and every group of non-empty shards of values of
the type, fewer than `2^64` values in all, in which the largest value of the type stands
nowhere but at the end of a shard: if the largest value of all shards minus the smallest
plus one differs from the number of values, the call returns false on every rank. -/
theorem c5_pigeonhole_violation_returns_false (T : OrdinalType)
    (shards : List (List Int)) (dist : List Int)
    (hne : ∀ s ∈ shards, s ≠ [])
    (hin : ∀ s ∈ shards, ∀ v ∈ s, T.InRange v)
    (hlen : (shards.map List.length).sum < sizeMod)
    (hnw : ∀ s ∈ shards, T.maxVal ∉ s.dropLast)
    (globalMin globalMax : Int)
    (hmin : (∃ s ∈ shards, globalMin ∈ s) ∧ ∀ s ∈ shards, ∀ v ∈ s, globalMin ≤ v)
    (hmax : (∃ s ∈ shards, globalMax ∈ s) ∧ ∀ s ∈ shards, ∀ v ∈ s, v ≤ globalMax)
    (hpig : globalMax - globalMin + 1 ≠ (((shards.map List.length).sum : Nat) : Int))
    (rank : Nat) (hr : rank < shards.length) :
    ∃ out, globallyConsecutiveOrdinals (IdentifierTraits.ordinal T) shards rank dist
        = Except.ok out ∧ out.decision = false := by
  refine ⟨normalForm T shards, globallyConsecutiveOrdinals_ordinal T shards rank dist hne hr, ?_⟩
  by_contra hd
  have hd' : (normalForm T shards).decision = true := by simpa using hd
  obtain ⟨hp, hall, _⟩ := normalForm_true hd'
  have hsne : shards ≠ [] := by
    intro h
    rw [h] at hr
    simp at hr
  have hb : ∀ s ∈ shards, (ends s).1 ∈ s ∧ (ends s).2 ∈ s ∧
      ∀ v ∈ s, (ends s).1 ≤ v ∧ v ≤ (ends s).2 := by
    intro s hs
    have hcons : z2AreConsecutive T s = true := List.all_eq_true.mp hall s hs
    exact exact_run_bounds s (hne s hs)
      (wrapRun_exact T s (hin s hs) (hnw s hs) (z2AreConsecutive_wrapRun T s (hin s hs) hcons))
  obtain ⟨⟨hlo, s1, hs1, e1⟩, ⟨hhi, s2, hs2, e2⟩⟩ := globalEnds_spec shards hsne
  obtain ⟨⟨sm, hsm, hmem⟩, hle⟩ := hmin
  obtain ⟨⟨sM, hsM, hMem⟩, hge⟩ := hmax
  have hgmin : (globalEnds shards).1 = globalMin := by
    have a1 := hle s1 hs1 _ (hb s1 hs1).1
    have a2 := ((hb sm hsm).2.2 _ hmem).1
    have a3 := hlo sm hsm
    omega
  have hgmax : (globalEnds shards).2 = globalMax := by
    have a1 := hge s2 hs2 _ (hb s2 hs2).2.1
    have a2 := ((hb sM hsM).2.2 _ hMem).2
    have a3 := hhi sM hsM
    omega
  have hsum : reduceAllSum (shards.map List.length) = (shards.map List.length).sum := by
    rw [reduceAllSum_eq]
    exact Nat.mod_eq_of_lt hlen
  have hcast := pigeonhole_size (globalEnds shards).2 (globalEnds shards).1
  rw [hp, hsum, hgmin, hgmax] at hcast
  have hr1 : T.InRange globalMin := hin sm hsm _ hmem
  have hr2 : T.InRange globalMax := hin sM hsM _ hMem
  have hmm : globalMin ≤ globalMax := hle sM hsM _ hMem
  have hpos : 1 ≤ (shards.map List.length).sum := by
    have h1 := length_le_sum_lengths shards sm hsm
    have h2 : 0 < sm.length := List.length_pos.mpr (hne sm hsm)
    omega
  have h3 := T.maxVal_eq
  have h4 := T.modulus_le
  unfold OrdinalType.InRange at hr1 hr2
  omega

/-- C5, amended, at the `int` shards `{0, 1}` and `{5}`: `5 - 0 + 1` is not `3`, and
rank 1 gets false. -/
theorem c5_witness :
    ∃ out, globallyConsecutiveOrdinals (IdentifierTraits.ordinal OrdinalType.int)
        [[0, 1], [5]] 1 [] = Except.ok out ∧ out.decision = false :=
  c5_pigeonhole_violation_returns_false OrdinalType.int [[0, 1], [5]] []
    (by decide) (by decide) (by decide) (by decide) 0 5
    (by decide) (by decide) (by decide) 1 (by decide)

/-- C6 fails on the code: with the `int` shards `{0, 1}` on rank 0 and `{-2, -1}` on
rank 1 the first value of rank 1 is smaller than the first value of rank 0, and both ranks
get the answer true with descriptor `[0, -2, 2]`; the shards `{5, 6}`, `{0, 1, 2, 3, 4}`
of the claim get false. -/
theorem c6_out_of_order_signed_accepted :
    (globallyConsecutiveOrdinals (IdentifierTraits.ordinal OrdinalType.int)
        [[0, 1], [-2, -1]] 0 [] = Except.ok ⟨true, [0, -2, 2], 4⟩ ∧
      globallyConsecutiveOrdinals (IdentifierTraits.ordinal OrdinalType.int)
        [[0, 1], [-2, -1]] 1 [] = Except.ok ⟨true, [0, -2, 2], 4⟩) ∧
    ([-2, -1] : List Int).getD 0 0 < ([0, 1] : List Int).getD 0 0 ∧
    globallyConsecutiveOrdinals (IdentifierTraits.ordinal OrdinalType.int)
        [[5, 6], [0, 1, 2, 3, 4]] 0 [] = Except.ok ⟨false, [0, 6], 7⟩ :=
  ⟨⟨rfl, rfl⟩, by decide, rfl⟩

/-- C7: for every identifier type whose traits say it is not an ordinal, as those of
`string` and of `pair` do, on every rank of every group holding fewer than `2^64`
identifiers the call returns false, leaves `dist` as passed in and sets `globalLen` to the
sum of the shard lengths of all ranks. -/
theorem c7_non_ordinal_returns_false {α : Type} (tr : IdentifierTraits α)
    (shards : List (List α)) (rank : Nat) (dist : List α)
    (hord : tr.isGlobalOrdinal = false) (hr : rank < shards.length)
    (hlen : (shards.map List.length).sum < sizeMod) :
    globallyConsecutiveOrdinals tr shards rank dist
      = Except.ok ⟨false, dist, (shards.map List.length).sum⟩ := by
  unfold globallyConsecutiveOrdinals
  rw [List.getElem?_eq_getElem hr]
  simp only [hord, Bool.not_false, if_true]
  rw [reduceAllSum_eq, Nat.mod_eq_of_lt hlen]

/-- C7 at two ranks holding the strings `{"a", "b"}` and `{}`, and at one rank holding a
pair of `int`. -/
theorem c7_witness :
    globallyConsecutiveOrdinals IdentifierTraits.string [["a", "b"], []] 1 ["z"]
      = Except.ok ⟨false, ["z"], ([["a", "b"], []].map List.length).sum⟩ ∧
    globallyConsecutiveOrdinals
        (IdentifierTraits.pair (IdentifierTraits.ordinal OrdinalType.int)
          (IdentifierTraits.ordinal OrdinalType.int)) [[(1, 2)]] 0 []
      = Except.ok ⟨false, [], ([[((1 : Int), (2 : Int))]].map List.length).sum⟩ :=
  ⟨c7_non_ordinal_returns_false IdentifierTraits.string [["a", "b"], []] 1 ["z"] rfl
      (by decide) (by decide),
    c7_non_ordinal_returns_false
      (IdentifierTraits.pair (IdentifierTraits.ordinal OrdinalType.int)
        (IdentifierTraits.ordinal OrdinalType.int)) [[(1, 2)]] 0 [] rfl (by decide)
      (by decide)⟩

set_option maxRecDepth 100000 in
/-- C8, as stated, fails: the only rank holding the `unsigned char` run `{254, 255}`
gets true with the second slot `0`, not `255 + 1`; and the only rank holding the run
`-128, ..., 0` of 129 values of the signed type `char` gets false. -/
theorem c8_counterexample_sentinel_and_count :
    globallyConsecutiveOrdinals (IdentifierTraits.ordinal OrdinalType.unsignedChar)
        [[254, 255]] 0 []
      = Except.ok ⟨true, [254, 0], 2⟩ ∧
    globallyConsecutiveOrdinals (IdentifierTraits.ordinal OrdinalType.char)
        [consecutiveRun (-128) 129] 0 []
      = Except.ok ⟨false, [-128, 0], 129⟩ :=
  ⟨rfl, rfl⟩

/-- C8, amended: for every ordinal type `T` and every run `v, v+1, ..., v+n-1` of
`n ≥ 1` values of `T` held by the only rank of a one-rank group, with both `v + n` and
the count `n` representable in `T`, the call returns true, the descriptor has exactly
two slots, the first is `v` and the second is `v + n`, the largest value plus one. -/
theorem c8_single_rank_run_accepted (T : OrdinalType) (v : Int) (n : Nat) (dist : List Int)
    (hn : 0 < n) (hv : T.minVal ≤ v) (hs : v + (n : Int) ≤ T.maxVal)
    (hnT : (n : Int) ≤ T.maxVal) :
    globallyConsecutiveOrdinals (IdentifierTraits.ordinal T) [consecutiveRun v n] 0 dist
      = Except.ok ⟨true, [v, v + (n : Int)], n⟩ := by
  have hne : ∀ s ∈ [consecutiveRun v n], s ≠ [] := by
    intro s hs' h
    rw [List.mem_singleton] at hs'
    have := consecutiveRun_length v n
    rw [← hs', h] at this
    simp at this
    omega
  rw [globallyConsecutiveOrdinals_ordinal T _ 0 dist hne (by simp)]
  have hcons := z2AreConsecutive_run T v n hn hv (by omega) hnT
  have hends : globalEnds [consecutiveRun v n] = (v, v + (n : Int) - 1) := by
    simp [globalEnds, consecutiveRun_ends v n hn]
  have h4 := T.maxVal_lt
  have hsum : reduceAllSum ([consecutiveRun v n].map List.length) = n := by
    rw [reduceAllSum_eq]
    simp only [List.map_cons, List.map_nil, List.sum_cons, List.sum_nil, consecutiveRun_length]
    unfold sizeMod
    omega
  have hp : sizeAdd (sizeSub (asSize (v + (n : Int) - 1)) (asSize v)) 1 = n := by
    have := pigeonhole_size (v + (n : Int) - 1) v
    omega
  have hsent : T.ofSize (sizeAdd (asSize (v + (n : Int) - 1)) 1) = v + (n : Int) := by
    have hin : T.InRange (v + (n : Int) - 1 + 1) := by
      constructor <;> omega
    rw [ofSize_sentinel hin]
    ring
  unfold normalForm
  simp only [hends, hsum, hp, hsent, if_true, List.all_cons, List.all_nil, hcons,
    Bool.and_self, List.length_singleton]

/-- C8, amended, at the `int` run `7, 8, 9` on the only rank. -/
theorem c8_witness :
    globallyConsecutiveOrdinals (IdentifierTraits.ordinal OrdinalType.int)
        [consecutiveRun 7 3] 0 []
      = Except.ok ⟨true, [7, 7 + ((3 : Nat) : Int)], 3⟩ :=
  c8_single_rank_run_accepted OrdinalType.int 7 3 [] (by decide) (by decide) (by decide)
    (by decide)

/-- C9 fails on the code: the only rank of a group, holding the `int` shard `{3, 1, 2}`,
gets the answer false with the buffer `[3, 2]`, the first and the last element of the
shard, while the smallest value is `1` and the largest is `3`. -/
theorem c9_range_buffer_holds_first_and_last :
    globallyConsecutiveOrdinals (IdentifierTraits.ordinal OrdinalType.int)
        [[3, 1, 2]] 0 [] = Except.ok ⟨false, [3, 2], 3⟩ ∧
    ((1 : Int) ∈ ([3, 1, 2] : List Int) ∧ ∀ v ∈ ([3, 1, 2] : List Int), 1 ≤ v) ∧
    ((3 : Int) ∈ ([3, 1, 2] : List Int) ∧ ∀ v ∈ ([3, 1, 2] : List Int), v ≤ 3) :=
  ⟨rfl, by decide, by decide⟩

/-- C10 fails on the code: on three ranks holding the `int` shards `{0}`, `{0}`, `{2}` the
call returns true with descriptor `[0, 0, 2, 3]`, whose first two starting values are
equal, although the value `1` is held by no rank; and on two ranks holding `{0, 1}` and
`{-2, -1}` it returns true with descriptor `[0, -2, 2]`, whose starting values decrease. -/
theorem c10_equal_starts_accepted :
    (globallyConsecutiveOrdinals (IdentifierTraits.ordinal OrdinalType.int)
        [[0], [0], [2]] 0 []
      = Except.ok ⟨true, [0, 0, 2, 3], 3⟩ ∧
      ¬ (([0, 0, 2, 3] : List Int).getD 0 0 < ([0, 0, 2, 3] : List Int).getD 1 0) ∧
      ∀ s ∈ ([[0], [0], [2]] : List (List Int)), (1 : Int) ∉ s) ∧
    (globallyConsecutiveOrdinals (IdentifierTraits.ordinal OrdinalType.int)
        [[0, 1], [-2, -1]] 0 []
      = Except.ok ⟨true, [0, -2, 2], 4⟩ ∧
      ¬ (([0, -2, 2] : List Int).getD 0 0 ≤ ([0, -2, 2] : List Int).getD 1 0)) :=
  ⟨⟨rfl, by decide, by decide⟩, ⟨rfl, by decide⟩⟩

/-- The order test of the code on its own: for every ordinal type and every group of two
or more non-empty shards of values of the type whose first values are not negative,
whenever the call returns true the starting values in the descriptor do not decrease
across ranks: `d[i] ≤ d[i+1]` for every `i + 1 < numRanks`. -/
theorem starts_non_decreasing (T : OrdinalType) (shards : List (List Int))
    (rank : Nat) (dist : List Int) (out : Outcome Int)
    (hne : ∀ s ∈ shards, s ≠ [])
    (hin : ∀ s ∈ shards, ∀ v ∈ s, T.InRange v)
    (hnn : ∀ s ∈ shards, 0 ≤ s.getD 0 0)
    (hr : rank < shards.length) (h2 : 2 ≤ shards.length)
    (hrun : globallyConsecutiveOrdinals (IdentifierTraits.ordinal T) shards rank dist
      = Except.ok out)
    (hdec : out.decision = true) :
    ∀ (i : Nat) (a b : Int), i + 1 < shards.length →
      out.dist[i]? = some a → out.dist[i + 1]? = some b → a ≤ b := by
  rw [globallyConsecutiveOrdinals_ordinal T shards rank dist hne hr] at hrun
  have hout : normalForm T shards = out := Except.ok.inj hrun
  subst hout
  obtain ⟨_, _, hcase⟩ := normalForm_true hdec
  rcases hcase with ⟨h1, _⟩ | ⟨_, hord, hdist⟩
  · omega
  · intro i a b hi ha hb
    rw [hdist] at ha hb
    have hi0 : i < shards.length := by omega
    have key : ∀ (k : Nat) (hk : k < shards.length) (c : Int),
        (List.map T.ofSize (List.map (fun s => asSize (ends s).1) shards)
          ++ [T.ofSize (sizeAdd (asSize (globalEnds shards).2) 1)])[k]? = some c →
        c = (ends shards[k]).1 ∧
          (List.map (fun s => asSize (ends s).1) shards)[k]? = some (asSize c) ∧
          0 ≤ c ∧ c ≤ T.maxVal := by
      intro k hk c hc
      rw [List.getElem?_append_left (by simpa using hk)] at hc
      simp only [List.getElem?_map, List.getElem?_eq_getElem hk, Option.map_some'] at hc
      have hmem : shards[k] ∈ shards := List.getElem_mem hk
      have hfirst : (ends shards[k]).1 ∈ shards[k] := by
        have hpos : 0 < shards[k].length := List.length_pos.mpr (hne _ hmem)
        have : (ends shards[k]).1 = shards[k][0] := by
          simp [ends, List.getD, List.getElem?_eq_getElem hpos]
        rw [this]
        exact List.getElem_mem hpos
      have hc' := Option.some.inj hc
      rw [ofSize_asSize (hin _ hmem _ hfirst)] at hc'
      refine ⟨hc'.symm, ?_, ?_, ?_⟩
      · simp only [List.getElem?_map, List.getElem?_eq_getElem hk, Option.map_some', hc']
      · rw [← hc']
        exact hnn _ hmem
      · rw [← hc']
        exact (hin _ hmem _ hfirst).2
    obtain ⟨_, ra, hann, haM⟩ := key i hi0 a ha
    obtain ⟨_, rb, hbnn, hbM⟩ := key (i + 1) hi b hb
    have hle := rankOrderLoop_le _ hord i _ _ ra rb
    have ca := asSize_cast a
    have cb := asSize_cast b
    have hM := T.maxVal_lt
    omega

/-- The order of the starting values at the `int` shards `{0, 1, 2}`, `{3, 4}`,
`{5, 6, 7, 8}`: the first two slots of the descriptor of rank 2 are `0 ≤ 3`. -/
theorem starts_non_decreasing_witness :
    globallyConsecutiveOrdinals (IdentifierTraits.ordinal OrdinalType.int)
        [[0, 1, 2], [3, 4], [5, 6, 7, 8]] 2 [] = Except.ok ⟨true, [0, 3, 5, 9], 9⟩ ∧
    (0 : Int) ≤ 3 :=
  ⟨rfl, starts_non_decreasing OrdinalType.int [[0, 1, 2], [3, 4], [5, 6, 7, 8]] 2 []
    ⟨true, [0, 3, 5, 9], 9⟩ (by decide) (by decide) (by decide) (by decide) (by decide)
    rfl rfl 0 0 3 (by decide) rfl rfl⟩

/-- Where the starting values do increase strictly: for every ordinal type and every group
of two or more non-empty shards of values of the type whose first values are not
negative and pairwise different, whenever the call returns true `d[i] < d[i+1]` for every
`i + 1 < numRanks`. -/
theorem starts_increasing (T : OrdinalType) (shards : List (List Int))
    (rank : Nat) (dist : List Int) (out : Outcome Int)
    (hne : ∀ s ∈ shards, s ≠ [])
    (hin : ∀ s ∈ shards, ∀ v ∈ s, T.InRange v)
    (hnn : ∀ s ∈ shards, 0 ≤ s.getD 0 0)
    (hdiff : ∀ (i j : Nat) (hi : i < shards.length) (hj : j < shards.length), i ≠ j →
      shards[i].getD 0 0 ≠ shards[j].getD 0 0)
    (hr : rank < shards.length) (h2 : 2 ≤ shards.length)
    (hrun : globallyConsecutiveOrdinals (IdentifierTraits.ordinal T) shards rank dist
      = Except.ok out)
    (hdec : out.decision = true) :
    ∀ (i : Nat) (a b : Int), i + 1 < shards.length →
      out.dist[i]? = some a → out.dist[i + 1]? = some b → a < b := by
  rw [globallyConsecutiveOrdinals_ordinal T shards rank dist hne hr] at hrun
  have hout : normalForm T shards = out := Except.ok.inj hrun
  subst hout
  obtain ⟨_, _, hcase⟩ := normalForm_true hdec
  rcases hcase with ⟨h1, _⟩ | ⟨_, hord, hdist⟩
  · omega
  · intro i a b hi ha hb
    rw [hdist] at ha hb
    have hi0 : i < shards.length := by omega
    have key : ∀ (k : Nat) (hk : k < shards.length) (c : Int),
        (List.map T.ofSize (List.map (fun s => asSize (ends s).1) shards)
          ++ [T.ofSize (sizeAdd (asSize (globalEnds shards).2) 1)])[k]? = some c →
        c = shards[k].getD 0 0 ∧
          (List.map (fun s => asSize (ends s).1) shards)[k]? = some (asSize c) ∧
          0 ≤ c ∧ c ≤ T.maxVal := by
      intro k hk c hc
      rw [List.getElem?_append_left (by simpa using hk)] at hc
      simp only [List.getElem?_map, List.getElem?_eq_getElem hk, Option.map_some'] at hc
      have hmem : shards[k] ∈ shards := List.getElem_mem hk
      have hfirst : (ends shards[k]).1 ∈ shards[k] := by
        have hpos : 0 < shards[k].length := List.length_pos.mpr (hne _ hmem)
        have : (ends shards[k]).1 = shards[k][0] := by
          simp [ends, List.getD, List.getElem?_eq_getElem hpos]
        rw [this]
        exact List.getElem_mem hpos
      have hc' := Option.some.inj hc
      rw [ofSize_asSize (hin _ hmem _ hfirst)] at hc'
      refine ⟨hc'.symm, ?_, ?_, ?_⟩
      · simp only [List.getElem?_map, List.getElem?_eq_getElem hk, Option.map_some', hc']
      · rw [← hc']
        exact hnn _ hmem
      · rw [← hc']
        exact (hin _ hmem _ hfirst).2
    obtain ⟨ea, ra, hann, haM⟩ := key i hi0 a ha
    obtain ⟨eb, rb, hbnn, hbM⟩ := key (i + 1) hi b hb
    have hle := rankOrderLoop_le _ hord i _ _ ra rb
    have hne' : a ≠ b := by
      rw [ea, eb]
      exact hdiff i (i + 1) hi0 hi (by omega)
    have ca := asSize_cast a
    have cb := asSize_cast b
    have hM := T.maxVal_lt
    omega

/-! ## Claims on the consistency of the protocol and on the local primitives -/

/-- C11: for every ordinal type and every group of non-empty shards, the calls of any two
ranks, whatever buffers `dist` they pass in, return the same decision, the same
descriptor and the same `globalLen`. -/
theorem c11_every_rank_same_outcome (T : OrdinalType) (shards : List (List Int))
    (r1 r2 : Nat) (dist1 dist2 : List Int)
    (hne : ∀ s ∈ shards, s ≠ [])
    (h1 : r1 < shards.length) (h2 : r2 < shards.length) :
    ∃ out,
      globallyConsecutiveOrdinals (IdentifierTraits.ordinal T) shards r1 dist1
        = Except.ok out ∧
      globallyConsecutiveOrdinals (IdentifierTraits.ordinal T) shards r2 dist2
        = Except.ok out :=
  ⟨normalForm T shards,
    globallyConsecutiveOrdinals_ordinal T shards r1 dist1 hne h1,
    globallyConsecutiveOrdinals_ordinal T shards r2 dist2 hne h2⟩

/-- C11 at the `int` shards `{0, 1, 2}`, `{4, 3}`, seen from ranks 0 and 1. -/
theorem c11_witness :
    ∃ out,
      globallyConsecutiveOrdinals (IdentifierTraits.ordinal OrdinalType.int)
        [[0, 1, 2], [4, 3]] 0 [] = Except.ok out ∧
      globallyConsecutiveOrdinals (IdentifierTraits.ordinal OrdinalType.int)
        [[0, 1, 2], [4, 3]] 1 [7] = Except.ok out :=
  c11_every_rank_same_outcome OrdinalType.int [[0, 1, 2], [4, 3]] 0 1 [] [7]
    (by decide) (by decide) (by decide)

/-- C12 fails on the code: on the one-element `int` list `{5}` and on the decreasing list
`{3, 2, 1}` the second component of the pair returned by `z2LocalMinMax`, and by `minMax`
of the traits, is the smallest `int`, not the largest element `5` or `3`. -/
theorem c12_max_missed_on_decreasing_lists :
    z2LocalMinMax OrdinalType.int [5] = (5, -2147483648) ∧
    (IdentifierTraitsFull.ordinal OrdinalType.int).minMax [5]
      = Except.ok (5, -2147483648) ∧
    z2LocalMinMax OrdinalType.int [3, 2, 1] = (1, -2147483648) ∧
    ((3 : Int) ∈ ([3, 2, 1] : List Int) ∧ ∀ v ∈ ([3, 2, 1] : List Int), v ≤ 3) :=
  ⟨by decide, rfl, by decide, by decide⟩

/-- C13: for every ordinal type `T`, `z2LocalMinMax` on the empty list returns the pair
whose first component is `numeric_limits<T>::max()`, the largest value of `T`, and whose
second component is `numeric_limits<T>::min()`, the smallest. -/
theorem c13_empty_list_gives_inverted_pair (T : OrdinalType) :
    z2LocalMinMax T [] = (T.maxVal, T.minVal) ∧
    (T.InRange T.maxVal ∧ T.InRange T.minVal) ∧
    ∀ x, T.InRange x → T.minVal ≤ x ∧ x ≤ T.maxVal := by
  refine ⟨rfl, ⟨?_, ?_⟩, fun x hx => hx⟩
  · have := T.maxVal_eq
    have := T.modulus_pos
    unfold OrdinalType.InRange
    omega
  · have := T.maxVal_eq
    have := T.modulus_pos
    unfold OrdinalType.InRange
    omega

theorem getD_zero_mem {val : List Int} (hne : val ≠ []) : val.getD 0 0 ∈ val := by
  cases val with
  | nil => exact absurd rfl hne
  | cons a l => simp [List.getD]

theorem getD_last_mem {val : List Int} (hne : val ≠ []) :
    val.getD (val.length - 1) 0 ∈ val := by
  have hpos : 0 < val.length := List.length_pos.mpr hne
  have hl : val[val.length - 1]? = some val[val.length - 1] :=
    List.getElem?_eq_getElem (by omega)
  simp only [List.getD_eq_getElem?_getD, hl, Option.getD_some]
  exact List.getElem_mem (by omega)

theorem unit_gaps_exact (val : List Int)
    (h : ∀ (i : Nat) (a b : Int), val[i]? = some a → val[i + 1]? = some b → b = a + 1) :
    ∀ (j : Nat) (v : Int), val[j]? = some v → v = val.getD 0 0 + (j : Int) := by
  intro j
  induction j with
  | zero =>
    intro v hv
    simp [List.getD, hv]
  | succ k ih =>
    intro v hv
    obtain ⟨hlt, _⟩ := List.getElem?_eq_some.mp hv
    have hk : k < val.length := by omega
    have hu : val[k]? = some val[k] := List.getElem?_eq_getElem hk
    rw [h k _ v hu hv, ih _ hu]
    push_cast
    ring

/-- C14: for every ordinal type `T` and every list of values of `T` on which the
conversion `T(n)` of the length and the expression `val[n-1] - val[0] + 1` do not
overflow, `z2AreConsecutive` returns true exactly when every element after the first is
its predecessor plus one, the last element included; the empty list and the lists of one
element are accepted. -/
theorem c14_scan_checks_every_gap (T : OrdinalType) (val : List Int)
    (hin : ∀ v ∈ val, T.InRange v)
    (hcount : (val.length : Int) ≤ T.maxVal)
    (hspan : T.arith (val.getD (val.length - 1) 0 - val.getD 0 0 + 1)
      = val.getD (val.length - 1) 0 - val.getD 0 0 + 1) :
    z2AreConsecutive T val = true ↔
      ∀ (i : Nat) (a b : Int), val[i]? = some a → val[i + 1]? = some b → b = a + 1 := by
  by_cases hne : val = []
  · subst hne
    simp [z2AreConsecutive]
  have hpos : 0 < val.length := List.length_pos.mpr hne
  have hnin : T.InRange (val.length : Int) := ⟨by have := T.minVal_nonpos; omega, hcount⟩
  have hfirst : T.InRange (val.getD 0 0) := hin _ (getD_zero_mem hne)
  have hlastIn : T.InRange (val.getD (val.length - 1) 0) := hin _ (getD_last_mem hne)
  have hl : val[val.length - 1]? = some (val.getD (val.length - 1) 0) := by
    simp [List.getD, List.getElem?_eq_getElem (show val.length - 1 < val.length by omega)]
  constructor
  · intro h
    have hrun := z2AreConsecutive_wrapRun T val hin h
    obtain ⟨hcmp, _⟩ := (z2AreConsecutive_unfold T val hne).mp h
    rw [hspan, OrdinalType.wrap_eq_self hnin] at hcmp
    intro i a b ha hb
    obtain ⟨hlt, _⟩ := List.getElem?_eq_some.mp hb
    have h1 := hrun i a ha
    have h2 := hrun (i + 1) b hb
    unfold OrdinalType.InRange at hfirst hlastIn
    have r1 : T.InRange (val.getD 0 0 + (i : Int)) := by
      constructor <;> omega
    have r2 : T.InRange (val.getD 0 0 + ((i + 1 : Nat) : Int)) := by
      constructor
      · omega
      · push_cast
        omega
    rw [OrdinalType.wrap_eq_self r1] at h1
    rw [OrdinalType.wrap_eq_self r2] at h2
    rw [h1, h2]
    push_cast
    ring
  · intro hgap
    have hexact := unit_gaps_exact val hgap
    have hlast := hexact _ _ hl
    rw [z2AreConsecutive_unfold T val hne]
    constructor
    · rw [hspan, OrdinalType.wrap_eq_self hnin, hlast]
      have : ((val.length - 1 : Nat) : Int) = (val.length : Int) - 1 := by omega
      rw [this]
      ring
    · rw [consecutiveLoop_iff T _ _ (OrdinalType.wrap_eq_self (T.wrap_inRange _))]
      intro i w hi
      have hlt : i < val.length - 2 := by
        by_contra hc
        rw [List.getElem?_take_eq_none (by omega)] at hi
        exact Option.noConfusion hi
      rw [List.getElem?_take_of_lt hlt, List.getElem?_drop] at hi
      have hw := hexact _ _ hi
      obtain ⟨hwlt, hwv⟩ := List.getElem?_eq_some.mp hi
      have hwin : T.InRange w := hin w (by rw [← hwv]; exact List.getElem_mem hwlt)
      rw [T.wrap_wrap_add]
      have e : val.getD 0 0 + 1 + (i : Int) = w := by
        rw [hw]
        push_cast
        ring
      rw [e]
      exact (OrdinalType.wrap_eq_self hwin).symm

/-- C14 at the `int` list `{3, 4, 5}`. -/
theorem c14_witness :
    z2AreConsecutive OrdinalType.int [3, 4, 5] = true ↔
      ∀ (i : Nat) (a b : Int), ([3, 4, 5] : List Int)[i]? = some a →
        ([3, 4, 5] : List Int)[i + 1]? = some b → b = a + 1 :=
  c14_scan_checks_every_gap OrdinalType.int [3, 4, 5] (by decide) (by decide) (by decide)

/-- C15: for every ordinal type and every group whose rank `i` passes the pair
`locals[i] = (localMin_i, localMax_i)`, the call of `globalMinMax` on any rank returns a
pair whose first component is the least of the `localMin_i` and whose second component is
the greatest of the `localMax_i`; in a group of one member it is the pair passed in. -/
theorem c15_global_min_max (T : OrdinalType) (locals : List (Int × Int)) (rank : Nat)
    (hr : rank < locals.length) :
    ∃ g, (IdentifierTraits.ordinal T).globalMinMax locals rank = Except.ok g ∧
      ((∀ p ∈ locals, g.1 ≤ p.1) ∧ ∃ p ∈ locals, g.1 = p.1) ∧
      ((∀ p ∈ locals, p.2 ≤ g.2) ∧ ∃ p ∈ locals, g.2 = p.2) ∧
      (locals.length = 1 → locals[rank]? = some g) := by
  cases locals with
  | nil => simp at hr
  | cons b rest =>
    obtain ⟨⟨h1, h2, h3⟩, ⟨h4, h5, h6⟩⟩ := foldl_reduce_spec rest b
    refine ⟨rest.foldl (fun inout inB => Zoltan2_MinMaxOperation.reduce inB inout) b,
      ?_, ⟨?_, ?_⟩, ⟨?_, ?_⟩, ?_⟩
    · simp only [IdentifierTraits.ordinal, z2GlobalMinMax]
      by_cases hlen : rest = []
      · subst hlen
        have h0 : rank = 0 := by simpa using hr
        subst h0
        simp
      · have hl : ¬ (b :: rest).length = 1 := by
          cases rest with
          | nil => exact absurd rfl hlen
          | cons t more => simp
        rw [if_neg hl]
        rfl
    · intro p hp
      rcases List.mem_cons.mp hp with hq | hq
      · subst hq
        exact h1
      · exact h2 p hq
    · rcases h3 with h3 | ⟨p, hp, h3⟩
      · exact ⟨b, List.mem_cons_self _ _, h3⟩
      · exact ⟨p, List.mem_cons_of_mem _ hp, h3⟩
    · intro p hp
      rcases List.mem_cons.mp hp with hq | hq
      · subst hq
        exact h4
      · exact h5 p hq
    · rcases h6 with h6 | ⟨p, hp, h6⟩
      · exact ⟨b, List.mem_cons_self _ _, h6⟩
      · exact ⟨p, List.mem_cons_of_mem _ hp, h6⟩
    · intro hlen
      have hrest : rest = [] := by
        cases rest with
        | nil => rfl
        | cons t more => simp at hlen
      subst hrest
      have h0 : rank = 0 := by simpa using hr
      subst h0
      simp

/-- C15 at three ranks passing `(4, 9)`, `(2, 3)`, `(7, 11)`, seen from rank 1. -/
theorem c15_witness :
    ∃ g, (IdentifierTraits.ordinal OrdinalType.int).globalMinMax
        [(4, 9), (2, 3), (7, 11)] 1 = Except.ok g ∧
      ((∀ p ∈ [((4 : Int), (9 : Int)), (2, 3), (7, 11)], g.1 ≤ p.1) ∧
        ∃ p ∈ [((4 : Int), (9 : Int)), (2, 3), (7, 11)], g.1 = p.1) ∧
      ((∀ p ∈ [((4 : Int), (9 : Int)), (2, 3), (7, 11)], p.2 ≤ g.2) ∧
        ∃ p ∈ [((4 : Int), (9 : Int)), (2, 3), (7, 11)], g.2 = p.2) ∧
      (([((4 : Int), (9 : Int)), (2, 3), (7, 11)]).length = 1 →
        [((4 : Int), (9 : Int)), (2, 3), (7, 11)][1]? = some g) :=
  c15_global_min_max OrdinalType.int [(4, 9), (2, 3), (7, 11)] 1 (by decide)

/-! ## Claims on the members of the traits -/

theorem getHashCode_inRange (a : List Nat) : OrdinalType.int.InRange (getHashCode a) := by
  unfold getHashCode
  simp only
  split
  · exact OrdinalType.wrap_inRange _ _
  · exact OrdinalType.wrap_inRange _ _

theorem hashCode_inRange (T : OrdinalType) (x : Int) :
    OrdinalType.int.InRange (T.hashCode x) := by
  cases T
  case long => exact getHashCode_inRange (OrdinalType.long.objectBytes x)
  case unsignedLong => exact getHashCode_inRange (OrdinalType.unsignedLong.objectBytes x)
  case longLong => exact getHashCode_inRange (OrdinalType.longLong.objectBytes x)
  case unsignedLongLong =>
    exact getHashCode_inRange (OrdinalType.unsignedLongLong.objectBytes x)
  all_goals exact OrdinalType.wrap_inRange OrdinalType.int x

theorem string_hashCode_inRange (a : String) :
    OrdinalType.int.InRange (IdentifierTraitsFull.string.hashCode a) := by
  simp only [IdentifierTraitsFull.string]
  exact getHashCode_inRange (stringBytes a)

theorem pair_hashCode_inRange {α β : Type} (t1 : IdentifierTraitsFull α)
    (t2 : IdentifierTraitsFull β) (p : α × β) :
    OrdinalType.int.InRange ((IdentifierTraitsFull.pair t1 t2).hashCode p) := by
  simp only [IdentifierTraitsFull.pair]
  exact OrdinalType.wrap_inRange OrdinalType.int (t1.hashCode p.1 + t2.hashCode p.2)

theorem hashCode_small (T : OrdinalType) (x : Int) (hb : T.bits ≤ 32) (hx : T.InRange x) :
    T.hashCode x = OrdinalType.int.wrap x ∧
      (0 ≤ T.hashCode x ↔ (0 ≤ x ∧ x < 2147483648)) := by
  have hw : T.hashCode x = OrdinalType.int.wrap x := by
    cases T <;> first | exact absurd hb (by decide) | rfl
  refine ⟨hw, ?_⟩
  rw [hw]
  have hlo : -2147483648 ≤ x := by
    have := hx.1
    revert this
    cases T <;> first | exact absurd hb (by decide) |
      (simp [OrdinalType.minVal, OrdinalType.isSigned, OrdinalType.bits]; try omega)
  have hhi : x < 4294967296 := by
    have := hx.2
    revert this
    cases T <;> first | exact absurd hb (by decide) |
      (simp [OrdinalType.maxVal, OrdinalType.isSigned, OrdinalType.bits]; try omega)
  simp only [OrdinalType.wrap, OrdinalType.minVal, OrdinalType.modulus, OrdinalType.bits,
    OrdinalType.isSigned, if_true]
  norm_num
  omega

/-- C16, as stated, fails: the hash code of the `int` identifier `-1` is `-1`, and the
hash code of the `unsigned int` identifier `2^31` is `-2^31`. -/
theorem c16_counterexample_negative_hash :
    ((IdentifierTraitsFull.ordinal OrdinalType.int).hashCode (-1) = -1 ∧
      ¬ (0 ≤ (IdentifierTraitsFull.ordinal OrdinalType.int).hashCode (-1))) ∧
    ((IdentifierTraitsFull.ordinal OrdinalType.unsignedInt).hashCode 2147483648
        = -2147483648 ∧
      ¬ (0 ≤ (IdentifierTraitsFull.ordinal OrdinalType.unsignedInt).hashCode 2147483648)) :=
  ⟨⟨by decide, by decide⟩, ⟨by decide, by decide⟩⟩

theorem getHashCode_nonneg (a : List Nat)
    (h : intOfBytes (hashLoop a 0 [0, 0, 0, 0]) ≠ -2147483648) : 0 ≤ getHashCode a := by
  have hr := OrdinalType.wrap_inRange OrdinalType.int
    (((((hashLoop a 0 [0, 0, 0, 0]).getD 0 0 + 256 * (hashLoop a 0 [0, 0, 0, 0]).getD 1 0
      + 65536 * (hashLoop a 0 [0, 0, 0, 0]).getD 2 0
      + 16777216 * (hashLoop a 0 [0, 0, 0, 0]).getD 3 0 : Nat) : Int)))
  have hlo : -2147483648 ≤ intOfBytes (hashLoop a 0 [0, 0, 0, 0]) := by
    have := hr.1
    simpa [intOfBytes, OrdinalType.minVal, OrdinalType.isSigned, OrdinalType.bits] using this
  unfold getHashCode
  simp only
  generalize intOfBytes (hashLoop a 0 [0, 0, 0, 0]) = total at h hlo
  split
  · have hin : OrdinalType.int.InRange (total * -1) := by
      constructor
      · simp [OrdinalType.minVal, OrdinalType.isSigned, OrdinalType.bits]
        omega
      · simp [OrdinalType.maxVal, OrdinalType.isSigned, OrdinalType.bits]
        omega
    rw [OrdinalType.wrap_eq_self hin]
    omega
  · omega

theorem hashCode_wide (T : OrdinalType) (x : Int) (hb : 32 < T.bits) :
    T.hashCode x = getHashCode (T.objectBytes x) := by
  cases T <;> first | exact absurd hb (by decide) | rfl

/-- C16, amended: for each of the ordinal types, for `string` and for every `pair`, the
hash code is computed from the identifier alone and is a 32-bit integer; for the 8-, 16-
and 32-bit types it is the identifier converted to `int`, so that it is non-negative
exactly when the identifier `x` satisfies `0 ≤ x < 2^31`; for the 64-bit types and for
`string` it is non-negative whenever the `int` folded from the bytes is not `-2^31`. -/
theorem c16_hash_is_int_and_identity_on_small_types :
    (∀ (T : OrdinalType) (x : Int),
      OrdinalType.int.InRange ((IdentifierTraitsFull.ordinal T).hashCode x)) ∧
    (∀ a : String, OrdinalType.int.InRange (IdentifierTraitsFull.string.hashCode a)) ∧
    (∀ (α β : Type) (t1 : IdentifierTraitsFull α) (t2 : IdentifierTraitsFull β) (p : α × β),
      OrdinalType.int.InRange ((IdentifierTraitsFull.pair t1 t2).hashCode p)) ∧
    (∀ (T : OrdinalType) (x : Int), T.bits ≤ 32 → T.InRange x →
      (IdentifierTraitsFull.ordinal T).hashCode x = OrdinalType.int.wrap x ∧
        (0 ≤ (IdentifierTraitsFull.ordinal T).hashCode x ↔ (0 ≤ x ∧ x < 2147483648))) ∧
    (∀ (T : OrdinalType) (x : Int), 32 < T.bits →
      intOfBytes (hashLoop (T.objectBytes x) 0 [0, 0, 0, 0]) ≠ -2147483648 →
      0 ≤ (IdentifierTraitsFull.ordinal T).hashCode x) ∧
    (∀ a : String,
      intOfBytes (hashLoop (stringBytes a) 0 [0, 0, 0, 0]) ≠ -2147483648 →
      0 ≤ IdentifierTraitsFull.string.hashCode a) := by
  refine ⟨fun T x => hashCode_inRange T x, fun a => string_hashCode_inRange a,
    fun _ _ t1 t2 p => pair_hashCode_inRange t1 t2 p,
    fun T x hb hx => hashCode_small T x hb hx, ?_, ?_⟩
  · intro T x hb h
    have e : (IdentifierTraitsFull.ordinal T).hashCode x = T.hashCode x := rfl
    rw [e, hashCode_wide T x hb]
    exact getHashCode_nonneg _ h
  · intro a h
    simp only [IdentifierTraitsFull.string]
    exact getHashCode_nonneg _ h

/-- C16, amended, at the `short` identifier `-7` (hash `-7`, negative), at the
`unsigned short` identifier `40000` (hash `40000`) and at the `long` identifier `-1`
(hash not negative). -/
theorem c16_witness :
    ((IdentifierTraitsFull.ordinal OrdinalType.short).hashCode (-7)
        = OrdinalType.int.wrap (-7) ∧
      (0 ≤ (IdentifierTraitsFull.ordinal OrdinalType.short).hashCode (-7)
        ↔ ((0 : Int) ≤ -7 ∧ (-7 : Int) < 2147483648))) ∧
    ((IdentifierTraitsFull.ordinal OrdinalType.unsignedShort).hashCode 40000
        = OrdinalType.int.wrap 40000 ∧
      (0 ≤ (IdentifierTraitsFull.ordinal OrdinalType.unsignedShort).hashCode 40000
        ↔ ((0 : Int) ≤ 40000 ∧ (40000 : Int) < 2147483648))) ∧
    0 ≤ (IdentifierTraitsFull.ordinal OrdinalType.long).hashCode (-1) :=
  ⟨c16_hash_is_int_and_identity_on_small_types.2.2.2.1 OrdinalType.short (-7)
      (by decide) (by decide),
    c16_hash_is_int_and_identity_on_small_types.2.2.2.1 OrdinalType.unsignedShort 40000
      (by decide) (by decide),
    c16_hash_is_int_and_identity_on_small_types.2.2.2.2.1 OrdinalType.long (-1)
      (by decide) (by decide)⟩

/-- C17: for `string` and for `pair<T1, T2>` with any two component types,
`isGlobalOrdinal()` is false and `difference`, `minMax`, `globalMinMax` and
`areConsecutive` fail with `std::logic_error("invalid call")` on every input, the empty
lists included. -/
theorem c17_non_ordinal_operations_fail :
    (IdentifierTraitsFull.string.isGlobalOrdinal = false ∧
      (∀ a b, IdentifierTraitsFull.string.difference a b
        = Except.error (Z2Error.logicError "invalid call")) ∧
      (∀ values, IdentifierTraitsFull.string.minMax values
        = Except.error (Z2Error.logicError "invalid call")) ∧
      (∀ locals rank, IdentifierTraitsFull.string.globalMinMax locals rank
        = Except.error (Z2Error.logicError "invalid call")) ∧
      (∀ val, IdentifierTraitsFull.string.areConsecutive val
        = Except.error (Z2Error.logicError "invalid call"))) ∧
    (∀ (α β : Type) (t1 : IdentifierTraitsFull α) (t2 : IdentifierTraitsFull β),
      (IdentifierTraitsFull.pair t1 t2).isGlobalOrdinal = false ∧
      (∀ a b, (IdentifierTraitsFull.pair t1 t2).difference a b
        = Except.error (Z2Error.logicError "invalid call")) ∧
      (∀ values, (IdentifierTraitsFull.pair t1 t2).minMax values
        = Except.error (Z2Error.logicError "invalid call")) ∧
      (∀ locals rank, (IdentifierTraitsFull.pair t1 t2).globalMinMax locals rank
        = Except.error (Z2Error.logicError "invalid call")) ∧
      (∀ val, (IdentifierTraitsFull.pair t1 t2).areConsecutive val
        = Except.error (Z2Error.logicError "invalid call"))) :=
  ⟨⟨rfl, fun _ _ => rfl, fun _ => rfl, fun _ _ => rfl, fun _ => rfl⟩,
    fun _ _ _ _ => ⟨rfl, fun _ _ => rfl, fun _ => rfl, fun _ _ => rfl, fun _ => rfl⟩⟩

/-- C18: for each of the ordinal types, for `string`, and for `pair<T1, T2>` with
components of any sizes, `key(id)` fails on every identifier when `hasUniqueKey()` is
false and returns a value on every identifier when `hasUniqueKey()` is true. -/
theorem c18_key_defined_iff_unique :
    (∀ T : OrdinalType, KeyDefinedIffUnique (IdentifierTraitsFull.ordinal T)) ∧
    KeyDefinedIffUnique IdentifierTraitsFull.string ∧
    (∀ (α β : Type) (t1 : IdentifierTraitsFull α) (t2 : IdentifierTraitsFull β),
      KeyDefinedIffUnique (IdentifierTraitsFull.pair t1 t2)) := by
  refine ⟨?_, ?_, ?_⟩
  · intro T
    exact ⟨fun h => by simp [IdentifierTraitsFull.ordinal] at h,
      fun _ id => ⟨_, rfl⟩⟩
  · exact ⟨fun _ id => ⟨_, rfl⟩,
      fun h => by simp [IdentifierTraitsFull.string] at h⟩
  · intro α β t1 t2
    constructor
    · intro h id
      have hs : ¬ (t1.sizeofT * 2 ≤ 8 ∧ t2.sizeofT * 2 ≤ 8) := by
        intro hc
        simp [IdentifierTraitsFull.pair, hc] at h
      have hthrow : t1.sizeofT > 8 / 2 ∨ t2.sizeofT > 8 / 2 := by omega
      exact ⟨Z2Error.logicError "invalid call", by
        simp only [IdentifierTraitsFull.pair]
        rw [if_pos hthrow]⟩
    · intro h id
      have hs : t1.sizeofT * 2 ≤ 8 ∧ t2.sizeofT * 2 ≤ 8 := by
        by_contra hc
        simp [IdentifierTraitsFull.pair, hc] at h
      have hno : ¬ (t1.sizeofT > 8 / 2 ∨ t2.sizeofT > 8 / 2) := by omega
      exact ⟨_, by
        simp only [IdentifierTraitsFull.pair]
        rw [if_neg hno]⟩

/-- C18 at `pair<long, char>` (no unique key, `key` fails) and at `pair<short, int>`
(unique key, `key` returns the eight bytes it wrote). -/
theorem c18_witness :
    (∃ e, (IdentifierTraitsFull.pair (IdentifierTraitsFull.ordinal OrdinalType.long)
        (IdentifierTraitsFull.ordinal OrdinalType.char)).key (5, 6) = Except.error e) ∧
    (∃ v, (IdentifierTraitsFull.pair (IdentifierTraitsFull.ordinal OrdinalType.short)
        (IdentifierTraitsFull.ordinal OrdinalType.int)).key (258, 1) = Except.ok v) :=
  ⟨(c18_key_defined_iff_unique.2.2 Int Int (IdentifierTraitsFull.ordinal OrdinalType.long)
      (IdentifierTraitsFull.ordinal OrdinalType.char)).1 (by decide) (5, 6),
    (c18_key_defined_iff_unique.2.2 Int Int (IdentifierTraitsFull.ordinal OrdinalType.short)
      (IdentifierTraitsFull.ordinal OrdinalType.int)).2 (by decide) (258, 1)⟩

/-- C19 fails on the code: `hasUniqueKey()` is true for the four 64-bit types, although
for `long` the identifiers `2^53` and `2^53 + 1` get the same key, `2^53 + 1` having no
exact `double`. -/
theorem c19_unique_key_claimed_for_64_bit_types :
    ((IdentifierTraitsFull.ordinal OrdinalType.long).hasUniqueKey = true ∧
      (IdentifierTraitsFull.ordinal OrdinalType.unsignedLong).hasUniqueKey = true ∧
      (IdentifierTraitsFull.ordinal OrdinalType.longLong).hasUniqueKey = true ∧
      (IdentifierTraitsFull.ordinal OrdinalType.unsignedLongLong).hasUniqueKey = true) ∧
    (OrdinalType.long.InRange 9007199254740992 ∧
      OrdinalType.long.InRange 9007199254740993) ∧
    (IdentifierTraitsFull.ordinal OrdinalType.long).key 9007199254740992
      = (IdentifierTraitsFull.ordinal OrdinalType.long).key 9007199254740993 ∧
    castDouble 9007199254740993 ≠ 9007199254740993 :=
  ⟨⟨rfl, rfl, rfl, rfl⟩, ⟨by decide, by decide⟩,
    congrArg (fun v => (Except.ok (KeyDouble.number v) : Except Z2Error KeyDouble))
      (by decide : castDouble 9007199254740992 = castDouble 9007199254740993),
    by decide⟩

/-- C20 fails on the code: for the type `bool`, which has no specialisation, the member
`key` of the primary template returns the value `1.0` on `true`, while
`is_valid_id_type()` is false and every other member is rejected. -/
theorem c20_primary_key_returns_a_value :
    (IdentifierTraits.primary boolToDouble).key true = Except.ok (KeyDouble.number 1) ∧
    (IdentifierTraits.primary boolToDouble).is_valid_id_type = false ∧
    ((∀ id, (IdentifierTraits.primary boolToDouble).hashCode id
        = Except.error Rejected.UsingInvalidGlobalIdentifierDataType) ∧
      (IdentifierTraits.primary boolToDouble).hasUniqueKey
        = Except.error Rejected.UsingInvalidGlobalIdentifierDataType ∧
      (IdentifierTraits.primary boolToDouble).name
        = Except.error Rejected.UsingInvalidGlobalIdentifierDataType ∧
      (∀ id, (IdentifierTraits.primary boolToDouble).stringify id
        = Except.error Rejected.UsingInvalidGlobalIdentifierDataType) ∧
      (IdentifierTraits.primary boolToDouble).isGlobalOrdinal
        = Except.error Rejected.UsingInvalidGlobalIdentifierDataType ∧
      (∀ a b, (IdentifierTraits.primary boolToDouble).difference a b
        = Except.error Rejected.UsingInvalidGlobalIdentifierDataType) ∧
      (∀ values, (IdentifierTraits.primary boolToDouble).minMax values
        = Except.error Rejected.UsingInvalidGlobalIdentifierDataType) ∧
      (∀ locals rank, (IdentifierTraits.primary boolToDouble).globalMinMax locals rank
        = Except.error Rejected.UsingInvalidGlobalIdentifierDataType) ∧
      (∀ val, (IdentifierTraits.primary boolToDouble).areConsecutive val
        = Except.error Rejected.UsingInvalidGlobalIdentifierDataType)) :=
  ⟨rfl, rfl, fun _ => rfl, rfl, rfl, fun _ => rfl, rfl, fun _ _ => rfl, fun _ => rfl,
    fun _ _ => rfl, fun _ => rfl⟩

/-! ## The collectives issued by a call -/

theorem globallyConsecutiveOrdinalsTraced_result {α : Type} (tr : IdentifierTraits α)
    (minMaxIssued : List Collective)
    (shards : List (List α)) (rank : Nat) (dist : List α) :
    (globallyConsecutiveOrdinalsTraced tr minMaxIssued shards rank dist).2
      = globallyConsecutiveOrdinals tr shards rank dist := by
  unfold globallyConsecutiveOrdinalsTraced globallyConsecutiveOrdinals
  repeat (first | rfl | split | (dsimp only; split))

theorem globallyConsecutiveOrdinalsTraced_ordinal (T : OrdinalType) (shards : List (List Int))
    (rank : Nat) (dist : List Int) (hne : ∀ s ∈ shards, s ≠ [])
    (hr : rank < shards.length) :
    (globallyConsecutiveOrdinalsTraced (IdentifierTraits.ordinal T)
      (z2GlobalMinMaxIssued shards.length) shards rank dist).1 = traceForm T shards := by
  have hval : shards[rank]? = some shards[rank] := List.getElem?_eq_getElem hr
  have hmem : shards[rank] ∈ shards := List.getElem_mem hr
  have hfl := firstLast_eq_ends (hne _ hmem)
  have hg := gather_firstLast hne
  have hmm := z2GlobalMinMax_ends shards rank hr
  have hfg := gather_localFlag T shards
  have hsne : shards ≠ [] := by
    intro h
    rw [h] at hr
    simp at hr
  have hmin := reduceAllMin_flags T shards hsne
  unfold globallyConsecutiveOrdinalsTraced traceForm
  simp only [hval]
  simp only [IdentifierTraits.ordinal, Bool.not_true, Bool.false_eq_true, if_false, hfl, hg]
  unfold IdentifierTraits.ordinal at hfg
  rw [hmm]
  simp only [hfg]
  by_cases hp : sizeAdd (sizeSub (asSize (globalEnds shards).2) (asSize (globalEnds shards).1)) 1
      = reduceAllSum (List.map List.length shards)
  · simp only [hp, if_true]
    by_cases hall : shards.all (z2AreConsecutive T) = true
    · have hminN : ¬ reduceAllMin (List.map (flagOf T) shards) = 0 := by
        rw [hmin, hall]
        simp
      have hown : z2AreConsecutive T shards[rank] = true := List.all_eq_true.mp hall _ hmem
      by_cases h1 : shards.length = 1
      · simp [hown, h1, hall]
      · simp [hown, h1, hall, hminN]
        split <;> rfl
    · have hall' : shards.all (z2AreConsecutive T) = false := by
        simpa using hall
      have hmin0 : reduceAllMin (List.map (flagOf T) shards) = 0 := hmin.mpr hall'
      have hcond : ¬ (z2AreConsecutive T shards[rank] && shards.length == 1) = true := by
        intro hc
        simp only [Bool.and_eq_true, beq_iff_eq] at hc
        obtain ⟨s, hs⟩ := List.length_eq_one.mp hc.2
        subst hs
        have h0 : rank = 0 := by simpa using hr
        subst h0
        simp at hall' hc
        rw [hall'] at hc
        exact Bool.false_ne_true hc
      simp only [hcond, if_false, hmin0, if_true, hall', Bool.false_eq_true]
  · simp only [hp, if_false]

theorem collectivesIssued_eq (T : OrdinalType) (shards : List (List Int))
    (rank : Nat) (hne : ∀ s ∈ shards, s ≠ []) (hr : rank < shards.length) :
    collectivesIssued T shards rank = traceForm T shards :=
  globallyConsecutiveOrdinalsTraced_ordinal T shards rank [] hne hr

theorem traceForm_allToAll (T : OrdinalType) (shards : List (List Int)) :
    Collective.allToAll ∈ traceForm T shards ↔
      (sizeAdd (sizeSub (asSize (globalEnds shards).2) (asSize (globalEnds shards).1)) 1
          = reduceAllSum (shards.map List.length) ∧
        shards.all (z2AreConsecutive T) = true ∧ shards.length ≠ 1) := by
  unfold traceForm z2GlobalMinMaxIssued
  simp only
  split_ifs <;> simp_all

theorem traceForm_minMax (T : OrdinalType) (shards : List (List Int)) :
    Collective.minMax ∈ traceForm T shards ↔ shards.length ≠ 1 := by
  unfold traceForm z2GlobalMinMaxIssued
  simp only
  split_ifs <;> simp_all

theorem traceForm_flagMin (T : OrdinalType) (shards : List (List Int))
    (h2 : shards.length ≠ 1)
    (hp : sizeAdd (sizeSub (asSize (globalEnds shards).2) (asSize (globalEnds shards).1)) 1
          = reduceAllSum (shards.map List.length)) :
    Collective.flagMin ∈ traceForm T shards := by
  unfold traceForm z2GlobalMinMaxIssued
  simp only
  split_ifs <;> simp_all

theorem traceForm_sublist (T : OrdinalType) (shards : List (List Int)) :
    List.Sublist (traceForm T shards)
      [Collective.sizeSum, Collective.minMax, Collective.flagMin, Collective.allToAll] := by
  unfold traceForm z2GlobalMinMaxIssued
  simp only
  split_ifs <;> decide

theorem globallyConsecutiveOrdinalsTraced_non_ordinal {α : Type} (tr : IdentifierTraits α)
    (issued : List Collective)
    (shards : List (List α)) (rank : Nat) (dist : List α)
    (hno : tr.isGlobalOrdinal = false) (hr : rank < shards.length) :
    (globallyConsecutiveOrdinalsTraced tr issued shards rank dist).1 = [Collective.sizeSum] := by
  unfold globallyConsecutiveOrdinalsTraced
  simp [List.getElem?_eq_getElem hr, hno]

/-- Whatever the type and whatever the shard of the rank holds, the first collective a
call issues is the size-sum reduction. -/
theorem globallyConsecutiveOrdinalsTraced_sizeSum_first {α : Type} (tr : IdentifierTraits α)
    (minMaxIssued : List Collective) (shards : List (List α)) (rank : Nat) (dist : List α)
    (hr : rank < shards.length) :
    (globallyConsecutiveOrdinalsTraced tr minMaxIssued shards rank dist).1.head?
      = some Collective.sizeSum := by
  unfold globallyConsecutiveOrdinalsTraced
  simp only [List.getElem?_eq_getElem hr]
  repeat (first | rfl | split)

/-! ## The lanes of `getHashCode` -/

theorem laneSumFrom_cons (start x : Nat) (rest : List Nat) (j : Nat) :
    laneSumFrom start (x :: rest) j
      = (if start % 4 = j then x else 0) + laneSumFrom (start + 1) rest j := by
  unfold laneSumFrom
  by_cases h : start % 4 = j
  · simp [List.enumFrom, List.filter, h]
  · simp [List.enumFrom, List.filter, h]

theorem hashLoop_length (a : List Nat) : ∀ (c : Nat) (lanes : List Nat),
    (hashLoop a c lanes).length = lanes.length := by
  induction a with
  | nil => intro c lanes; rfl
  | cons x rest ih =>
    intro c lanes
    simp only [hashLoop]
    rw [ih]
    simp

theorem hashLoop_lane (a : List Nat) : ∀ (c start : Nat) (lanes : List Nat),
    c < 4 → start % 4 = c → lanes.length = 4 → (∀ j, j < 4 → lanes.getD j 0 < 256) →
    ∀ j, j < 4 →
      (hashLoop a c lanes).getD j 0 = (lanes.getD j 0 + laneSumFrom start a j) % 256 := by
  induction a with
  | nil =>
    intro c start lanes _ _ _ hb j hj
    simp only [hashLoop, laneSumFrom, List.enumFrom, List.filter, List.map, List.sum_nil,
      Nat.add_zero]
    exact (Nat.mod_eq_of_lt (hb j hj)).symm
  | cons x rest ih =>
    intro c start lanes hc hs hl hb j hj
    simp only [hashLoop]
    have hc' : (if c + 1 = 4 then 0 else c + 1) < 4 := by split <;> omega
    have hs' : (start + 1) % 4 = (if c + 1 = 4 then 0 else c + 1) := by split <;> omega
    have hl' : (lanes.set c ((lanes.getD c 0 + x) % 256)).length = 4 := by simp [hl]
    have hb' : ∀ i, i < 4 → (lanes.set c ((lanes.getD c 0 + x) % 256)).getD i 0 < 256 := by
      intro i hi
      by_cases hic : c = i
      · subst hic
        simp [List.getD_eq_getElem?_getD, List.getElem?_set, hl, hc]
        exact Nat.mod_lt _ (by norm_num)
      · have := hb i hi
        simpa [List.getD_eq_getElem?_getD, List.getElem?_set, hic] using this
    rw [ih _ (start + 1) _ hc' hs' hl' hb' j hj, laneSumFrom_cons]
    by_cases hjc : c = j
    · subst hjc
      simp [List.getD_eq_getElem?_getD, List.getElem?_set, hl, hc, hs]
      omega
    · have hsj : ¬ start % 4 = j := by omega
      simp [List.getD_eq_getElem?_getD, List.getElem?_set, hjc, hsj]

/-! ## The reduction operator, the local extremes and accepted groups -/

theorem reduce_eq_min_max (a b : Int × Int) :
    Zoltan2_MinMaxOperation.reduce a b = (min a.1 b.1, max a.2 b.2) := by
  simp only [Zoltan2_MinMaxOperation.reduce]
  refine Prod.ext ?_ ?_
  · show (if a.1 < b.1 then a.1 else b.1) = min a.1 b.1
    split <;> omega
  · show (if a.2 > b.2 then a.2 else b.2) = max a.2 b.2
    split <;> omega

theorem reduceAll_spec (l : List (Int × Int)) (hne : l ≠ []) :
    ∃ r, reduceAll Zoltan2_MinMaxOperation.reduce l = some r ∧
      ((∀ p ∈ l, r.1 ≤ p.1) ∧ ∃ p ∈ l, r.1 = p.1) ∧
      ((∀ p ∈ l, p.2 ≤ r.2) ∧ ∃ p ∈ l, r.2 = p.2) := by
  cases l with
  | nil => exact absurd rfl hne
  | cons b rest =>
    have h := foldl_reduce_spec rest b
    simp only at h
    obtain ⟨⟨h1, h2, h3⟩, ⟨h4, h5, h6⟩⟩ := h
    refine ⟨_, rfl, ⟨?_, ?_⟩, ⟨?_, ?_⟩⟩
    · intro p hp
      rcases List.mem_cons.mp hp with hq | hq
      · subst hq
        exact h1
      · exact h2 p hq
    · rcases h3 with h3 | ⟨p, hp, h3⟩
      · exact ⟨b, List.mem_cons_self _ _, h3⟩
      · exact ⟨p, List.mem_cons_of_mem _ hp, h3⟩
    · intro p hp
      rcases List.mem_cons.mp hp with hq | hq
      · subst hq
        exact h4
      · exact h5 p hq
    · rcases h6 with h6 | ⟨p, hp, h6⟩
      · exact ⟨b, List.mem_cons_self _ _, h6⟩
      · exact ⟨p, List.mem_cons_of_mem _ hp, h6⟩

theorem reduceAll_perm (l1 l2 : List (Int × Int)) (hp : l1.Perm l2) :
    reduceAll Zoltan2_MinMaxOperation.reduce l1 = reduceAll Zoltan2_MinMaxOperation.reduce l2 := by
  by_cases hne : l1 = []
  · subst hne
    rw [List.nil_perm.mp hp]
  · have hne2 : l2 ≠ [] := by
      intro h
      subst h
      exact hne (List.perm_nil.mp hp)
    obtain ⟨r1, e1, ⟨a1, ⟨p1, m1, q1⟩⟩, ⟨b1, ⟨s1, n1, t1⟩⟩⟩ := reduceAll_spec l1 hne
    obtain ⟨r2, e2, ⟨a2, ⟨p2, m2, q2⟩⟩, ⟨b2, ⟨s2, n2, t2⟩⟩⟩ := reduceAll_spec l2 hne2
    rw [e1, e2]
    have c1 := a1 p2 (hp.mem_iff.mpr m2)
    have c2 := a2 p1 (hp.mem_iff.mp m1)
    have c3 := b1 s2 (hp.mem_iff.mpr n2)
    have c4 := b2 s1 (hp.mem_iff.mp n1)
    congr 1
    refine Prod.ext ?_ ?_ <;> omega

theorem reduceAll_append (l1 l2 : List (Int × Int)) (h1 : l1 ≠ []) (h2 : l2 ≠ []) :
    ∃ r1 r2, reduceAll Zoltan2_MinMaxOperation.reduce l1 = some r1 ∧
      reduceAll Zoltan2_MinMaxOperation.reduce l2 = some r2 ∧
      reduceAll Zoltan2_MinMaxOperation.reduce (l1 ++ l2)
        = some (Zoltan2_MinMaxOperation.reduce r1 r2) := by
  obtain ⟨r1, e1, ⟨a1, ⟨p1, m1, q1⟩⟩, ⟨b1, ⟨s1, n1, t1⟩⟩⟩ := reduceAll_spec l1 h1
  obtain ⟨r2, e2, ⟨a2, ⟨p2, m2, q2⟩⟩, ⟨b2, ⟨s2, n2, t2⟩⟩⟩ := reduceAll_spec l2 h2
  obtain ⟨r, e, ⟨a, ⟨p, m, q⟩⟩, ⟨b, ⟨s, n, t⟩⟩⟩ := reduceAll_spec (l1 ++ l2) (by simp [h1])
  refine ⟨r1, r2, e1, e2, ?_⟩
  rw [e, reduce_eq_min_max]
  have c1 := a p1 (List.mem_append_left _ m1)
  have c2 := a p2 (List.mem_append_right _ m2)
  have c3 := b s1 (List.mem_append_left _ n1)
  have c4 := b s2 (List.mem_append_right _ n2)
  have c5 : r1.1 ≤ p.1 ∨ r2.1 ≤ p.1 := by
    rcases List.mem_append.mp m with h | h
    · exact Or.inl (a1 p h)
    · exact Or.inr (a2 p h)
  have c6 : s.2 ≤ r1.2 ∨ s.2 ≤ r2.2 := by
    rcases List.mem_append.mp n with h | h
    · exact Or.inl (b1 s h)
    · exact Or.inr (b2 s h)
  congr 1
  refine Prod.ext ?_ ?_
  · show r.1 = min r1.1 r2.1
    omega
  · show r.2 = max r1.2 r2.2
    omega

theorem minMaxLoop_spec (l : List Int) : ∀ (mn mx : Int),
    (minMaxLoop l mn mx).1 ≤ mn ∧ (∀ v ∈ l, (minMaxLoop l mn mx).1 ≤ v) ∧
    ((minMaxLoop l mn mx).1 = mn ∨ (minMaxLoop l mn mx).1 ∈ l) ∧
    mx ≤ (minMaxLoop l mn mx).2 ∧
    ((minMaxLoop l mn mx).2 = mx ∨ (minMaxLoop l mn mx).2 ∈ l) ∧
    (∀ v ∈ l, mn ≤ v → v ≤ (minMaxLoop l mn mx).2) := by
  induction l with
  | nil =>
    intro mn mx
    simp [minMaxLoop]
  | cons v rest ih =>
    intro mn mx
    simp only [minMaxLoop]
    by_cases h1 : v < mn
    · simp only [h1, if_true]
      obtain ⟨a1, a2, a3, a4, a5, a6⟩ := ih v mx
      refine ⟨by omega, ?_, ?_, a4, ?_, ?_⟩
      · intro w hw
        rcases List.mem_cons.mp hw with h | h
        · subst h
          exact a1
        · exact a2 w h
      · rcases a3 with h | h
        · exact Or.inr (by rw [h]; exact List.mem_cons_self _ _)
        · exact Or.inr (List.mem_cons_of_mem _ h)
      · rcases a5 with h | h
        · exact Or.inl h
        · exact Or.inr (List.mem_cons_of_mem _ h)
      · intro w hw hmw
        rcases List.mem_cons.mp hw with h | h
        · subst h
          omega
        · exact a6 w h (by omega)
    · simp only [h1, if_false]
      by_cases h2 : v > mx
      · simp only [h2, if_true]
        obtain ⟨a1, a2, a3, a4, a5, a6⟩ := ih mn v
        refine ⟨a1, ?_, ?_, by omega, ?_, ?_⟩
        · intro w hw
          rcases List.mem_cons.mp hw with h | h
          · subst h
            omega
          · exact a2 w h
        · rcases a3 with h | h
          · exact Or.inl h
          · exact Or.inr (List.mem_cons_of_mem _ h)
        · rcases a5 with h | h
          · exact Or.inr (by rw [h]; exact List.mem_cons_self _ _)
          · exact Or.inr (List.mem_cons_of_mem _ h)
        · intro w hw hmw
          rcases List.mem_cons.mp hw with h | h
          · subst h
            exact a4
          · exact a6 w h hmw
      · simp only [h2, if_false]
        obtain ⟨a1, a2, a3, a4, a5, a6⟩ := ih mn mx
        refine ⟨a1, ?_, ?_, a4, ?_, ?_⟩
        · intro w hw
          rcases List.mem_cons.mp hw with h | h
          · subst h
            omega
          · exact a2 w h
        · rcases a3 with h | h
          · exact Or.inl h
          · exact Or.inr (List.mem_cons_of_mem _ h)
        · rcases a5 with h | h
          · exact Or.inl h
          · exact Or.inr (List.mem_cons_of_mem _ h)
        · intro w hw hmw
          rcases List.mem_cons.mp hw with h | h
          · subst h
            omega
          · exact a6 w h hmw

theorem accepted_bounds (T : OrdinalType) (shards : List (List Int))
    (hne : ∀ s ∈ shards, s ≠ [])
    (hin : ∀ s ∈ shards, ∀ v ∈ s, T.InRange v)
    (hnw : ∀ s ∈ shards, T.maxVal ∉ s.dropLast)
    (hall : shards.all (z2AreConsecutive T) = true) :
    ∀ s ∈ shards,
      (∀ (j : Nat) (v : Int), s[j]? = some v → v = s.getD 0 0 + (j : Int)) ∧
      (ends s).1 ∈ s ∧ (ends s).2 ∈ s ∧ ∀ v ∈ s, (ends s).1 ≤ v ∧ v ≤ (ends s).2 := by
  intro s hs
  have hcons : z2AreConsecutive T s = true := List.all_eq_true.mp hall s hs
  have hrun := wrapRun_exact T s (hin s hs) (hnw s hs)
    (z2AreConsecutive_wrapRun T s (hin s hs) hcons)
  exact ⟨hrun, exact_run_bounds s (hne s hs) hrun⟩

theorem globalEnds_extremes (shards : List (List Int)) (hsne : shards ≠ [])
    (hb : ∀ s ∈ shards, (ends s).1 ∈ s ∧ (ends s).2 ∈ s ∧
      ∀ v ∈ s, (ends s).1 ≤ v ∧ v ≤ (ends s).2)
    (globalMin globalMax : Int)
    (hmin : (∃ s ∈ shards, globalMin ∈ s) ∧ ∀ s ∈ shards, ∀ v ∈ s, globalMin ≤ v)
    (hmax : (∃ s ∈ shards, globalMax ∈ s) ∧ ∀ s ∈ shards, ∀ v ∈ s, v ≤ globalMax) :
    (globalEnds shards).1 = globalMin ∧ (globalEnds shards).2 = globalMax := by
  obtain ⟨⟨hlo, s1, hs1, e1⟩, ⟨hhi, s2, hs2, e2⟩⟩ := globalEnds_spec shards hsne
  obtain ⟨⟨sm, hsm, hmem⟩, hle⟩ := hmin
  obtain ⟨⟨sM, hsM, hMem⟩, hge⟩ := hmax
  constructor
  · have a1 := hle s1 hs1 _ (hb s1 hs1).1
    have a2 := ((hb sm hsm).2.2 _ hmem).1
    have a3 := hlo sm hsm
    omega
  · have a1 := hge s2 hs2 _ (hb s2 hs2).2.1
    have a2 := ((hb sM hsM).2.2 _ hMem).2
    have a3 := hhi sM hsM
    omega

theorem z2AreConsecutive_iff_run (T : OrdinalType) (val : List Int)
    (hin : ∀ v ∈ val, T.InRange v)
    (hcount : (val.length : Int) ≤ T.maxVal)
    (hspan : T.arith (val.getD (val.length - 1) 0 - val.getD 0 0 + 1)
      = val.getD (val.length - 1) 0 - val.getD 0 0 + 1) :
    z2AreConsecutive T val = true ↔
      ∀ (j : Nat) (v : Int), val[j]? = some v → v = val.getD 0 0 + (j : Int) := by
  by_cases hne : val = []
  · subst hne
    simp [z2AreConsecutive]
  have hpos : 0 < val.length := List.length_pos.mpr hne
  have hnin : T.InRange (val.length : Int) := ⟨by have := T.minVal_nonpos; omega, hcount⟩
  have hfirst : T.InRange (val.getD 0 0) := hin _ (getD_zero_mem hne)
  have hlastIn : T.InRange (val.getD (val.length - 1) 0) := hin _ (getD_last_mem hne)
  have hl : val[val.length - 1]? = some (val.getD (val.length - 1) 0) := by
    simp [List.getD, List.getElem?_eq_getElem (show val.length - 1 < val.length by omega)]
  constructor
  · intro h
    have hrun := z2AreConsecutive_wrapRun T val hin h
    obtain ⟨hcmp, _⟩ := (z2AreConsecutive_unfold T val hne).mp h
    rw [hspan, OrdinalType.wrap_eq_self hnin] at hcmp
    intro j v hv
    obtain ⟨hlt, _⟩ := List.getElem?_eq_some.mp hv
    have h1 := hrun j v hv
    unfold OrdinalType.InRange at hfirst hlastIn
    have r1 : T.InRange (val.getD 0 0 + (j : Int)) := by
      constructor <;> omega
    rw [OrdinalType.wrap_eq_self r1] at h1
    exact h1
  · intro hexact
    have hlast := hexact _ _ hl
    rw [z2AreConsecutive_unfold T val hne]
    constructor
    · rw [hspan, OrdinalType.wrap_eq_self hnin, hlast]
      have : ((val.length - 1 : Nat) : Int) = (val.length : Int) - 1 := by omega
      rw [this]
      ring
    · rw [consecutiveLoop_iff T _ _ (OrdinalType.wrap_eq_self (T.wrap_inRange _))]
      intro i w hi
      have hlt : i < val.length - 2 := by
        by_contra hc
        rw [List.getElem?_take_eq_none (by omega)] at hi
        exact Option.noConfusion hi
      rw [List.getElem?_take_of_lt hlt, List.getElem?_drop] at hi
      have hw := hexact _ _ hi
      obtain ⟨hwlt, hwv⟩ := List.getElem?_eq_some.mp hi
      have hwin : T.InRange w := hin w (by rw [← hwv]; exact List.getElem_mem hwlt)
      rw [T.wrap_wrap_add]
      have e : val.getD 0 0 + 1 + (i : Int) = w := by
        rw [hw]
        push_cast
        ring
      rw [e]
      exact (OrdinalType.wrap_eq_self hwin).symm

theorem normalForm_single (T : OrdinalType) (val : List Int) :
    (normalForm T [val]).decision = true ↔
      (sizeAdd (sizeSub (asSize (ends val).2) (asSize (ends val).1)) 1
          = val.length % sizeMod ∧ z2AreConsecutive T val = true) := by
  have hg : globalEnds [val] = ends val := rfl
  have hs : reduceAllSum ([val].map List.length) = val.length % sizeMod := by
    rw [reduceAllSum_eq]
    simp
  unfold normalForm
  simp only [hg, hs, List.all_cons, List.all_nil, Bool.and_true, List.length_singleton]
  split_ifs <;> simp_all

theorem objectBytes_length (T : OrdinalType) (x : Int) :
    (T.objectBytes x).length = T.sizeofT := by
  simp [OrdinalType.objectBytes]

theorem objectBytes_inj (T : OrdinalType) (hb : T.sizeofT ≤ 4) (x y : Int)
    (hx : T.InRange x) (hy : T.InRange y) (h : T.objectBytes x = T.objectBytes y) : x = y := by
  have hbyte : ∀ i, i < T.sizeofT →
      (x % T.modulus).toNat / 256 ^ i % 256 = (y % T.modulus).toNat / 256 ^ i % 256 := by
    intro i hi
    unfold OrdinalType.objectBytes at h
    exact List.map_inj_left.mp h i (List.mem_range.mpr hi)
  have hxm := Int.emod_nonneg x (ne_of_gt T.modulus_pos)
  have hym := Int.emod_nonneg y (ne_of_gt T.modulus_pos)
  have hxl := Int.emod_lt_of_pos x T.modulus_pos
  have hyl := Int.emod_lt_of_pos y T.modulus_pos
  have hmod : x % T.modulus = y % T.modulus := by
    generalize x % T.modulus = a at hbyte hxm hxl
    generalize y % T.modulus = b at hbyte hym hyl
    have e : a.toNat = b.toNat := by
      have ha : ((a.toNat : Nat) : Int) < T.modulus := by omega
      have hb' : ((b.toNat : Nat) : Int) < T.modulus := by omega
      generalize a.toNat = n at hbyte ha
      generalize b.toNat = m at hbyte hb'
      cases T
      case char | unsignedChar =>
        have h0 := hbyte 0 (by decide)
        simp [OrdinalType.modulus, OrdinalType.bits] at ha hb'
        norm_num at h0
        omega
      case short | unsignedShort =>
        have h0 := hbyte 0 (by decide)
        have h1 := hbyte 1 (by decide)
        simp [OrdinalType.modulus, OrdinalType.bits] at ha hb'
        norm_num at h0 h1
        omega
      case int | unsignedInt =>
        have h0 := hbyte 0 (by decide)
        have h1 := hbyte 1 (by decide)
        have h2 := hbyte 2 (by decide)
        have h3 := hbyte 3 (by decide)
        simp [OrdinalType.modulus, OrdinalType.bits] at ha hb'
        norm_num at h0 h1 h2 h3
        omega
      case long | unsignedLong | longLong | unsignedLongLong =>
        exact absurd hb (by decide)
    omega
  apply OrdinalType.eq_of_inRange_of_dvd hx hy
  exact Int.ModEq.dvd hmod.symm

theorem storeBytes_key (b1 b2 : List Nat) (h1 : b1.length ≤ 4) (h2 : b2.length ≤ 4) :
    storeBytes (storeBytes (List.replicate 8 0) (4 - b1.length) b1) (4 + 4 - b2.length) b2
      = List.replicate (4 - b1.length) 0 ++ b1 ++ List.replicate (4 - b2.length) 0 ++ b2 := by
  have e1 : storeBytes (List.replicate 8 0) (4 - b1.length) b1
      = (List.replicate (4 - b1.length) 0 ++ b1) ++ List.replicate 4 0 := by
    unfold storeBytes
    rw [List.take_replicate, List.drop_replicate]
    have a1 : min (4 - b1.length) 8 = 4 - b1.length := by omega
    have a2 : 8 - (4 - b1.length + b1.length) = 4 := by omega
    rw [a1, a2]
  rw [e1]
  unfold storeBytes
  have hl : (List.replicate (4 - b1.length) 0 ++ b1 : List Nat).length = 4 := by
    simp
    omega
  rw [List.take_append_eq_append_take, List.take_of_length_le (by rw [hl]; omega), hl,
    List.take_replicate, List.drop_of_length_le (by simp; omega)]
  have a3 : min (4 + 4 - b2.length - 4) 4 = 4 - b2.length := by omega
  rw [a3]
  simp

/-! ## Claims on the collectives, the hash, the reduction and the descriptor -/

/-- C21, as stated, fails: in the group of the `int` shards `{}` on rank 0 and `{1, 2}` on
rank 1, the first thing the call of rank 0 does is issue the size-sum reduction: the list
of the collectives it has issued is not empty, so nothing is raised before every
collective. -/
theorem c21_counterexample_size_sum_issued_first :
    (globallyConsecutiveOrdinalsTraced (IdentifierTraits.ordinal OrdinalType.int)
        (z2GlobalMinMaxIssued 2) [[], [1, 2]] 0 []).1.head? = some Collective.sizeSum ∧
    (globallyConsecutiveOrdinalsTraced (IdentifierTraits.ordinal OrdinalType.int)
        (z2GlobalMinMaxIssued 2) [[], [1, 2]] 0 []).1 ≠ [] :=
  ⟨rfl, by decide⟩

/-- C21, amended: for every ordinal type, a rank that calls with an empty shard is not
stopped before the collectives: the first thing its call does is issue the size-sum
reduction, as the call of every other rank does. -/
theorem c21_empty_shard_joins_size_sum (T : OrdinalType) (shards : List (List Int))
    (rank : Nat) (dist : List Int)
    (h : shards[rank]? = some []) :
    (globallyConsecutiveOrdinalsTraced (IdentifierTraits.ordinal T)
        (z2GlobalMinMaxIssued shards.length) shards rank dist).1.head?
      = some Collective.sizeSum := by
  obtain ⟨hr, _⟩ := List.getElem?_eq_some.mp h
  exact globallyConsecutiveOrdinalsTraced_sizeSum_first _ _ shards rank dist hr

/-- C21, amended, at the `long` shards `{3}` on rank 0 and `{}` on rank 1, seen from
rank 1. -/
theorem c21_witness :
    (globallyConsecutiveOrdinalsTraced (IdentifierTraits.ordinal OrdinalType.long)
        (z2GlobalMinMaxIssued ([[3], []] : List (List Int)).length) [[3], []] 1 [7]).1.head?
      = some Collective.sizeSum :=
  c21_empty_shard_joins_size_sum OrdinalType.long [[3], []] 1 [7] rfl

/-- C22: for every byte sequence `a`, `getHashCode` folds the bytes into four lanes of
8 bits: before the sign fix-up lane `j`, in memory order, is the sum of the bytes `a[i]`
with `i mod 4 = j` reduced modulo 256, with no carry from one lane into another.  The
result is the `int` made of the four lanes when that `int` is not negative and its
negation in `int` arithmetic otherwise; the negation is the absolute value unless the
`int` is `-2^31`. -/
theorem c22_hash_folds_into_four_lanes (a : List Nat) :
    (hashLoop a 0 [0, 0, 0, 0]).length = 4
    ∧ (∀ j, j < 4 → (hashLoop a 0 [0, 0, 0, 0]).getD j 0 = laneSum a j % 256)
    ∧ getHashCode a
        = (if 0 ≤ intOfBytes (hashLoop a 0 [0, 0, 0, 0])
            then intOfBytes (hashLoop a 0 [0, 0, 0, 0])
            else OrdinalType.int.wrap (- intOfBytes (hashLoop a 0 [0, 0, 0, 0])))
    ∧ (intOfBytes (hashLoop a 0 [0, 0, 0, 0]) ≠ -2147483648 →
        getHashCode a = |intOfBytes (hashLoop a 0 [0, 0, 0, 0])|) := by
  refine ⟨?_, ?_, ?_, ?_⟩
  · rw [hashLoop_length]
    rfl
  · intro j hj
    have h := hashLoop_lane a 0 0 [0, 0, 0, 0] (by norm_num) (by norm_num) rfl
      (by
        intro i hi
        have : i = 0 ∨ i = 1 ∨ i = 2 ∨ i = 3 := by omega
        rcases this with h | h | h | h <;> subst h <;> simp) j hj
    rw [h]
    have : ([0, 0, 0, 0] : List Nat).getD j 0 = 0 := by
      have : j = 0 ∨ j = 1 ∨ j = 2 ∨ j = 3 := by omega
      rcases this with h | h | h | h <;> subst h <;> simp
    rw [this, Nat.zero_add]
    rfl
  · unfold getHashCode
    simp only
    generalize intOfBytes (hashLoop a 0 [0, 0, 0, 0]) = total
    by_cases h : total < 0
    · have h2 : ¬ 0 ≤ total := by omega
      simp only [h, h2, if_true, if_false]
      congr 1
      omega
    · have h2 : 0 ≤ total := by omega
      simp only [h, h2, if_true, if_false]
  · intro hne
    have hr := OrdinalType.wrap_inRange OrdinalType.int
      (((((hashLoop a 0 [0, 0, 0, 0]).getD 0 0 + 256 * (hashLoop a 0 [0, 0, 0, 0]).getD 1 0
        + 65536 * (hashLoop a 0 [0, 0, 0, 0]).getD 2 0
        + 16777216 * (hashLoop a 0 [0, 0, 0, 0]).getD 3 0 : Nat) : Int)))
    have hlo : -2147483648 ≤ intOfBytes (hashLoop a 0 [0, 0, 0, 0]) := by
      have := hr.1
      simpa [intOfBytes, OrdinalType.minVal, OrdinalType.isSigned, OrdinalType.bits] using this
    have hhi : intOfBytes (hashLoop a 0 [0, 0, 0, 0]) ≤ 2147483647 := by
      have := hr.2
      simpa [intOfBytes, OrdinalType.maxVal, OrdinalType.isSigned, OrdinalType.bits] using this
    unfold getHashCode
    simp only
    generalize intOfBytes (hashLoop a 0 [0, 0, 0, 0]) = total at hne hlo hhi
    split
    · have hin : OrdinalType.int.InRange (total * -1) := by
        constructor
        · simp [OrdinalType.minVal, OrdinalType.isSigned, OrdinalType.bits]
          omega
        · simp [OrdinalType.maxVal, OrdinalType.isSigned, OrdinalType.bits]
          omega
      rw [OrdinalType.wrap_eq_self hin, abs_of_neg (by omega)]
      omega
    · rw [abs_of_nonneg (by omega)]

/-- C23 fails on the code: the four bytes `0, 0, 0, 128` fold to the `int` `-2^31`, whose
negation in `int` arithmetic is `-2^31` again, so `getHashCode` returns the negative
value `-2147483648`; so does `hashCode` of the `long` identifier `2^31`. -/
theorem c23_hash_negative_at_int_min :
    getHashCode [0, 0, 0, 128] = -2147483648
    ∧ getHashCode [0, 0, 0, 128] < 0
    ∧ OrdinalType.long.InRange 2147483648
    ∧ OrdinalType.long.objectBytes 2147483648 = [0, 0, 0, 128, 0, 0, 0, 0]
    ∧ OrdinalType.long.hashCode 2147483648 = -2147483648 := by
  refine ⟨by decide, by decide, by decide, by decide, by decide⟩

/-- C24: the step of `Zoltan2_MinMaxOperation` sends the pairs `(a0, a1)`, `(b0, b1)` to
`(min(a0, b0), max(a1, b1))`; it is commutative, associative and idempotent, and the
result of `reduceAll` with it over the pairs of the ranks is the same for every order of
the ranks and for every cut of the ranks into two groups reduced apart. -/
theorem c24_reduce_commutative_associative_idempotent :
    (∀ a b : Int × Int, Zoltan2_MinMaxOperation.reduce a b = (min a.1 b.1, max a.2 b.2))
    ∧ (∀ a b : Int × Int,
        Zoltan2_MinMaxOperation.reduce a b = Zoltan2_MinMaxOperation.reduce b a)
    ∧ (∀ a b c : Int × Int,
        Zoltan2_MinMaxOperation.reduce (Zoltan2_MinMaxOperation.reduce a b) c
          = Zoltan2_MinMaxOperation.reduce a (Zoltan2_MinMaxOperation.reduce b c))
    ∧ (∀ a : Int × Int, Zoltan2_MinMaxOperation.reduce a a = a)
    ∧ (∀ l1 l2 : List (Int × Int), l1.Perm l2 →
        reduceAll Zoltan2_MinMaxOperation.reduce l1
          = reduceAll Zoltan2_MinMaxOperation.reduce l2)
    ∧ (∀ l1 l2 : List (Int × Int), l1 ≠ [] → l2 ≠ [] →
        ∃ r1 r2, reduceAll Zoltan2_MinMaxOperation.reduce l1 = some r1 ∧
          reduceAll Zoltan2_MinMaxOperation.reduce l2 = some r2 ∧
          reduceAll Zoltan2_MinMaxOperation.reduce (l1 ++ l2)
            = some (Zoltan2_MinMaxOperation.reduce r1 r2)) := by
  refine ⟨reduce_eq_min_max, ?_, ?_, ?_, reduceAll_perm, reduceAll_append⟩
  · intro a b
    rw [reduce_eq_min_max, reduce_eq_min_max, min_comm, max_comm]
  · intro a b c
    simp only [reduce_eq_min_max, min_assoc, max_assoc]
  · intro a
    rw [reduce_eq_min_max, min_self, max_self]

/-- C25: for every ordinal type and every group of non-empty shards, any two ranks issue
the same list of collectives, a sublist of size-sum, min/max, flag, all-to-all in this
order; the min/max reduction is left out exactly in a one-rank group, and in a group of
two or more ranks that passes the pigeonhole test the flag reduction is never left out.
For every identifier type that is not an ordinal any two ranks issue the same list as
well, whatever their shards. -/
theorem c25_every_rank_same_collectives (T : OrdinalType) (shards : List (List Int)) (r1 r2 : Nat)
    (hne : ∀ s ∈ shards, s ≠ [])
    (h1 : r1 < shards.length) (h2 : r2 < shards.length) :
    collectivesIssued T shards r1 = collectivesIssued T shards r2
    ∧ List.Sublist (collectivesIssued T shards r1)
        [Collective.sizeSum, Collective.minMax, Collective.flagMin, Collective.allToAll]
    ∧ (Collective.minMax ∈ collectivesIssued T shards r1 ↔ shards.length ≠ 1)
    ∧ (shards.length ≠ 1 →
        sizeAdd (sizeSub (asSize (globalEnds shards).2) (asSize (globalEnds shards).1)) 1
          = reduceAllSum (shards.map List.length) →
        Collective.flagMin ∈ collectivesIssued T shards r1)
    ∧ ∀ (α : Type) (tr : IdentifierTraits α) (issued : List Collective)
        (groups : List (List α)) (a b : Nat) (d1 d2 : List α),
        tr.isGlobalOrdinal = false → a < groups.length → b < groups.length →
        (globallyConsecutiveOrdinalsTraced tr issued groups a d1).1
          = (globallyConsecutiveOrdinalsTraced tr issued groups b d2).1 := by
  rw [collectivesIssued_eq T shards r1 hne h1, collectivesIssued_eq T shards r2 hne h2]
  refine ⟨rfl, traceForm_sublist T shards, traceForm_minMax T shards,
    traceForm_flagMin T shards, ?_⟩
  intro α tr issued groups a b d1 d2 hno ha hb
  rw [globallyConsecutiveOrdinalsTraced_non_ordinal tr issued groups a d1 hno ha,
    globallyConsecutiveOrdinalsTraced_non_ordinal tr issued groups b d2 hno hb]

/-- C25 at the `int` shards `{0, 1}`, `{2, 3}`, seen from ranks 0 and 1. -/
theorem c25_witness :
    collectivesIssued OrdinalType.int [[0, 1], [2, 3]] 0
      = collectivesIssued OrdinalType.int [[0, 1], [2, 3]] 1 :=
  (c25_every_rank_same_collectives OrdinalType.int [[0, 1], [2, 3]] 0 1
    (by decide) (by decide) (by decide)).1

/-- C26, as stated, fails: in the group of the `unsigned long` shards `{2^64-1, 0}`, `{0}`,
`{3}` rank 0 reaches the all-to-all exchange, although the second element of its shard
is not the first plus one and the largest value minus the smallest plus one, `2^64`, is
not the number of values, `4`. -/
theorem c26_counterexample_wrapping_shard_reaches_exchange :
    collectivesIssued OrdinalType.unsignedLong [[18446744073709551615, 0], [0], [3]] 0
      = [Collective.sizeSum, Collective.minMax, Collective.flagMin, Collective.allToAll]
    ∧ ([18446744073709551615, 0] : List Int)[1]? = some 0
    ∧ (0 : Int) ≠ 18446744073709551615 + 1
    ∧ ((18446744073709551615 : Int) ∈ ([18446744073709551615, 0] : List Int)
      ∧ (0 : Int) ∈ ([0] : List Int))
    ∧ (18446744073709551615 : Int) - 0 + 1 ≠ 4 := by
  refine ⟨by decide, by decide, by decide, by decide, by decide⟩

/-- C26, amended: for every ordinal type and every group of non-empty shards of values of
the type, fewer than `2^64` values in all, in which the largest value of the type stands
nowhere but at the end of a shard: a rank reaches the all-to-all exchange only if the
group has at least two ranks, the largest value of all shards minus the smallest plus one
is the number of values, and every shard is an increasing consecutive run. -/
theorem c26_exchange_reached_only_if (T : OrdinalType) (shards : List (List Int))
    (hne : ∀ s ∈ shards, s ≠ [])
    (hin : ∀ s ∈ shards, ∀ v ∈ s, T.InRange v)
    (hlen : (shards.map List.length).sum < sizeMod)
    (hnw : ∀ s ∈ shards, T.maxVal ∉ s.dropLast)
    (globalMin globalMax : Int)
    (hmin : (∃ s ∈ shards, globalMin ∈ s) ∧ ∀ s ∈ shards, ∀ v ∈ s, globalMin ≤ v)
    (hmax : (∃ s ∈ shards, globalMax ∈ s) ∧ ∀ s ∈ shards, ∀ v ∈ s, v ≤ globalMax)
    (rank : Nat) (hr : rank < shards.length)
    (hreach : Collective.allToAll ∈ collectivesIssued T shards rank) :
    2 ≤ shards.length ∧
    globalMax - globalMin + 1 = (((shards.map List.length).sum : Nat) : Int) ∧
    ∀ s ∈ shards, ∀ (j : Nat) (v : Int), s[j]? = some v → v = s.getD 0 0 + (j : Int) := by
  rw [collectivesIssued_eq T shards rank hne hr, traceForm_allToAll] at hreach
  obtain ⟨hp, hall, hn1⟩ := hreach
  have hsne : shards ≠ [] := by
    intro h
    rw [h] at hr
    simp at hr
  have hb := accepted_bounds T shards hne hin hnw hall
  obtain ⟨hgmin, hgmax⟩ := globalEnds_extremes shards hsne (fun s hs => (hb s hs).2)
    globalMin globalMax hmin hmax
  refine ⟨by omega, ?_, fun s hs => (hb s hs).1⟩
  obtain ⟨⟨sm, hsm, hmem⟩, hle⟩ := hmin
  obtain ⟨⟨sM, hsM, hMem⟩, hge⟩ := hmax
  have hsum : reduceAllSum (shards.map List.length) = (shards.map List.length).sum := by
    rw [reduceAllSum_eq]
    exact Nat.mod_eq_of_lt hlen
  have hcast := pigeonhole_size (globalEnds shards).2 (globalEnds shards).1
  rw [hp, hsum, hgmin, hgmax] at hcast
  have hr1 : T.InRange globalMin := hin sm hsm _ hmem
  have hr2 : T.InRange globalMax := hin sM hsM _ hMem
  have hmm : globalMin ≤ globalMax := hle sM hsM _ hMem
  have hpos : 1 ≤ (shards.map List.length).sum := by
    have h1 := length_le_sum_lengths shards sm hsm
    have h2 : 0 < sm.length := List.length_pos.mpr (hne sm hsm)
    omega
  have h3 := T.maxVal_eq
  have h4 := T.modulus_le
  unfold OrdinalType.InRange at hr1 hr2
  unfold sizeMod at hlen
  omega

/-- C26, amended, at the `int` shards `{0, 1}`, `{2, 3}`, seen from rank 1. -/
theorem c26_witness :
    2 ≤ ([[0, 1], [2, 3]] : List (List Int)).length ∧
    (3 : Int) - 0 + 1
      = (((([[0, 1], [2, 3]] : List (List Int)).map List.length).sum : Nat) : Int) ∧
    ∀ s ∈ ([[0, 1], [2, 3]] : List (List Int)), ∀ (j : Nat) (v : Int),
      s[j]? = some v → v = s.getD 0 0 + (j : Int) :=
  c26_exchange_reached_only_if OrdinalType.int [[0, 1], [2, 3]]
    (by decide) (by decide) (by decide) (by decide) 0 3
    (by decide) (by decide) 1 (by decide) (by decide)

/-- C27: for every ordinal type and every non-empty list of values of the type, the first
component of the pair returned by `z2LocalMinMax` is the smallest element; the second
component is never greater than the largest element and is the largest element whenever
that element stands at some index `i ≥ 1`. -/
theorem c27_local_min_exact_max_from_index_one (T : OrdinalType) (val : List Int) (hne : val ≠ [])
    (hin : ∀ v ∈ val, T.InRange v) :
    ((z2LocalMinMax T val).1 ∈ val ∧ ∀ v ∈ val, (z2LocalMinMax T val).1 ≤ v) ∧
    ∀ m, m ∈ val → (∀ v ∈ val, v ≤ m) →
      (z2LocalMinMax T val).2 ≤ m ∧
      ((∃ i, 1 ≤ i ∧ val[i]? = some m) → (z2LocalMinMax T val).2 = m) := by
  cases val with
  | nil => exact absurd rfl hne
  | cons v0 rest =>
    have hlen : ¬ (v0 :: rest).length < 1 := by simp
    have h0 := hin v0 (List.mem_cons_self _ _)
    have hlt : T.minVal < T.maxVal := by cases T <;> decide
    obtain ⟨b1, b2, b3, b4, b5, b6⟩ := minMaxLoop_spec (v0 :: rest) T.maxVal T.minVal
    simp only [z2LocalMinMax, hlen, if_false]
    refine ⟨⟨?_, b2⟩, ?_⟩
    · rcases b3 with h | h
      · have := b2 v0 (List.mem_cons_self _ _)
        have h02 := h0.2
        have : v0 = (minMaxLoop (v0 :: rest) T.maxVal T.minVal).1 := by omega
        rw [← this]
        exact List.mem_cons_self _ _
      · exact h
    · intro m hm hmax
      have hle : (minMaxLoop (v0 :: rest) T.maxVal T.minVal).2 ≤ m := by
        rcases b5 with h | h
        · rw [h]
          exact (hin m hm).1
        · exact hmax _ h
      refine ⟨hle, ?_⟩
      rintro ⟨i, hi, hget⟩
      have hmr : m ∈ rest := by
        cases i with
        | zero => omega
        | succ k =>
          simp only [List.getElem?_cons_succ] at hget
          exact List.getElem?_mem hget
      have hv0m := hmax v0 (List.mem_cons_self _ _)
      have : m ≤ (minMaxLoop (v0 :: rest) T.maxVal T.minVal).2 := by
        simp only [minMaxLoop]
        by_cases h1 : v0 < T.maxVal
        · simp only [h1, if_true]
          exact (minMaxLoop_spec rest v0 T.minVal).2.2.2.2.2 m hmr hv0m
        · simp only [h1, if_false]
          have h02 := h0.2
          by_cases h2 : v0 > T.minVal
          · simp only [h2, if_true]
            exact (minMaxLoop_spec rest T.maxVal v0).2.2.2.2.2 m hmr (by omega)
          · omega
      omega

/-- C27 at the `int` list `{1, 3, 2}`. -/
theorem c27_witness :
    ((z2LocalMinMax OrdinalType.int [1, 3, 2]).1 ∈ ([1, 3, 2] : List Int) ∧
      ∀ v ∈ ([1, 3, 2] : List Int), (z2LocalMinMax OrdinalType.int [1, 3, 2]).1 ≤ v) ∧
    ∀ m, m ∈ ([1, 3, 2] : List Int) → (∀ v ∈ ([1, 3, 2] : List Int), v ≤ m) →
      (z2LocalMinMax OrdinalType.int [1, 3, 2]).2 ≤ m ∧
      ((∃ i, 1 ≤ i ∧ ([1, 3, 2] : List Int)[i]? = some m) →
        (z2LocalMinMax OrdinalType.int [1, 3, 2]).2 = m) :=
  c27_local_min_exact_max_from_index_one OrdinalType.int [1, 3, 2] (by decide) (by decide)

/-- C28: in a one-rank group, for every ordinal type `T` and every non-empty shard of
values of `T` on which the conversion `T(n)` of the length and the expression
`val[n-1] - val[0] + 1` do not overflow, the call returns true exactly when
`val[j] = val[0] + j` for every index `j`. -/
theorem c28_single_rank_true_iff_run (T : OrdinalType) (val : List Int) (dist : List Int)
    (hne : val ≠ [])
    (hin : ∀ v ∈ val, T.InRange v)
    (hcount : (val.length : Int) ≤ T.maxVal)
    (hspan : T.arith (val.getD (val.length - 1) 0 - val.getD 0 0 + 1)
      = val.getD (val.length - 1) 0 - val.getD 0 0 + 1) :
    ∃ out, globallyConsecutiveOrdinals (IdentifierTraits.ordinal T) [val] 0 dist
        = Except.ok out ∧
      (out.decision = true ↔
        ∀ (j : Nat) (v : Int), val[j]? = some v → v = val.getD 0 0 + (j : Int)) := by
  refine ⟨normalForm T [val],
    globallyConsecutiveOrdinals_ordinal T [val] 0 dist (by simpa using hne) (by simp), ?_⟩
  rw [normalForm_single, z2AreConsecutive_iff_run T val hin hcount hspan]
  constructor
  · exact fun h => h.2
  · intro hrun
    refine ⟨?_, hrun⟩
    have hpos : 0 < val.length := List.length_pos.mpr hne
    have hl : val[val.length - 1]? = some (val.getD (val.length - 1) 0) := by
      simp [List.getD, List.getElem?_eq_getElem (show val.length - 1 < val.length by omega)]
    have hlast := hrun _ _ hl
    have hcast := pigeonhole_size (ends val).2 (ends val).1
    have hM := T.maxVal_lt
    have e1 : (ends val).1 = val.getD 0 0 := rfl
    have e2 : (ends val).2 = val.getD (val.length - 1) 0 := rfl
    rw [e1, e2] at hcast ⊢
    have hmod : val.length % sizeMod = val.length := by
      apply Nat.mod_eq_of_lt
      unfold sizeMod
      omega
    rw [hmod]
    omega

/-- C28 at the `int` shard `{0, 2, 1, 3}`, whose first and last elements span four
values. -/
theorem c28_witness :
    ∃ out, globallyConsecutiveOrdinals (IdentifierTraits.ordinal OrdinalType.int)
        [[0, 2, 1, 3]] 0 [] = Except.ok out ∧
      (out.decision = true ↔
        ∀ (j : Nat) (v : Int), ([0, 2, 1, 3] : List Int)[j]? = some v →
          v = ([0, 2, 1, 3] : List Int).getD 0 0 + (j : Int)) :=
  c28_single_rank_true_iff_run OrdinalType.int [0, 2, 1, 3] []
    (by decide) (by decide) (by decide) (by decide)

/-- C30: for every pair type whose components are ordinal types of at most 4 bytes,
`hasUniqueKey()` is true, the key of a pair is a pattern of 8 bytes, and two pairs with
the same key pattern have equal first components and equal second components. -/
theorem c30_pair_key_injective (T1 T2 : OrdinalType) (h1 : T1.sizeofT ≤ 4) (h2 : T2.sizeofT ≤ 4)
    (p q : Int × Int)
    (hp1 : T1.InRange p.1) (hp2 : T2.InRange p.2)
    (hq1 : T1.InRange q.1) (hq2 : T2.InRange q.2)
    (hkey : (IdentifierTraitsFull.pair (IdentifierTraitsFull.ordinal T1)
        (IdentifierTraitsFull.ordinal T2)).key p
      = (IdentifierTraitsFull.pair (IdentifierTraitsFull.ordinal T1)
        (IdentifierTraitsFull.ordinal T2)).key q) :
    (IdentifierTraitsFull.pair (IdentifierTraitsFull.ordinal T1)
        (IdentifierTraitsFull.ordinal T2)).hasUniqueKey = true ∧
    (∃ bytes, (IdentifierTraitsFull.pair (IdentifierTraitsFull.ordinal T1)
        (IdentifierTraitsFull.ordinal T2)).key p = Except.ok (KeyDouble.storage bytes) ∧
      bytes.length = 8) ∧
    p.1 = q.1 ∧ p.2 = q.2 := by
  have hc : ¬ (T1.sizeofT > 8 / 2 ∨ T2.sizeofT > 8 / 2) := by omega
  have hu : T1.sizeofT * 2 ≤ 8 ∧ T2.sizeofT * 2 ≤ 8 := by omega
  have lp1 := objectBytes_length T1 p.1
  have lp2 := objectBytes_length T2 p.2
  have lq1 := objectBytes_length T1 q.1
  have lq2 := objectBytes_length T2 q.2
  have fp := storeBytes_key (T1.objectBytes p.1) (T2.objectBytes p.2) (by omega) (by omega)
  have fq := storeBytes_key (T1.objectBytes q.1) (T2.objectBytes q.2) (by omega) (by omega)
  rw [lp1, lp2] at fp
  rw [lq1, lq2] at fq
  simp only [IdentifierTraitsFull.pair, IdentifierTraitsFull.ordinal, hc, if_false, hu,
    and_self, if_true] at hkey ⊢
  have e8 : (8 : Nat) / 2 = 4 := by norm_num
  rw [e8] at hkey ⊢
  rw [fp] at hkey ⊢
  rw [fq] at hkey
  refine ⟨trivial, ⟨_, rfl, ?_⟩, ?_⟩
  · simp [lp1, lp2]
    omega
  · have hbytes := KeyDouble.storage.inj (Except.ok.inj hkey)
    obtain ⟨h12, hb2⟩ := List.append_inj' hbytes (by rw [lp2, lq2])
    have h1' := List.append_cancel_right h12
    have hb1 := List.append_cancel_left h1'
    exact ⟨objectBytes_inj T1 h1 _ _ hp1 hq1 hb1, objectBytes_inj T2 h2 _ _ hp2 hq2 hb2⟩

/-- C30 at the pairs `(-2, 7)` and `(-2, 7)` of `pair<short, int>`. -/
theorem c30_witness :
    (IdentifierTraitsFull.pair (IdentifierTraitsFull.ordinal OrdinalType.short)
        (IdentifierTraitsFull.ordinal OrdinalType.int)).hasUniqueKey = true ∧
    (∃ bytes, (IdentifierTraitsFull.pair (IdentifierTraitsFull.ordinal OrdinalType.short)
        (IdentifierTraitsFull.ordinal OrdinalType.int)).key ((-2, 7) : Int × Int)
          = Except.ok (KeyDouble.storage bytes) ∧
      bytes.length = 8) ∧
    ((-2, 7) : Int × Int).1 = ((-2, 7) : Int × Int).1 ∧
    ((-2, 7) : Int × Int).2 = ((-2, 7) : Int × Int).2 :=
  c30_pair_key_injective OrdinalType.short OrdinalType.int (by decide) (by decide)
    (-2, 7) (-2, 7) (by decide) (by decide) (by decide) (by decide) rfl

end Zoltan2
